import Mathlib

/-!
AssemblyPlanner: graph container, node adjacency, node data, XML input reader and entry point.

A shallow embedding of `assemblyPlanner/Source/graph.hpp`, `containers.hpp` and `main.cpp`,
and of `src/node.hpp` and `src/input_reader.hpp`.

* Heap objects (`Node`, `Edge`) live in a store and are referred to by address, because the
  C++ code shares `Edge *` between the graph's edge vector and the adjacency maps of the nodes.
* A member function that can throw, or whose behaviour can be undefined, returns an `Outcome`:
  the state it leaves together with the returned value or the exception, or `undefined`.
* `std::unordered_map` is an association list without duplicate insertion (`UMap`); the
  iteration order of the C++ container is unspecified, the list order stands for it.
-/

set_option autoImplicit false

namespace AssemblyPlanner

/-! ## Exceptions and outcomes -/

/-- Address of an object on the free store (`Node *`, `Edge *`). -/
abbrev Ptr := Nat

/-- The exceptions the code raises: `std::range_error(what)` thrown by `Graph::insertEdge`,
and `std::out_of_range` thrown by `std::unordered_map::at`. -/
inductive Exn where
  | range_error (what : String)
  | out_of_range
  deriving DecidableEq, Repr

/-- Result of a member function on a state `σ`: normal return of `a` leaving state `s`, an
exception `e` propagating to the caller leaving state `s`, or undefined behaviour (dereference
of a null or dangling pointer, unchecked out-of-range access), for which C++ defines neither a
result nor a resulting state. -/
inductive Outcome (σ α : Type) where
  | ok (s : σ) (a : α)
  | thrown (s : σ) (e : Exn)
  | undefined
  deriving DecidableEq, Repr

/-- The state an outcome leaves behind, when it has one. -/
def Outcome.state? {σ α : Type} : Outcome σ α → Option σ
  | .ok s _ => some s
  | .thrown s _ => some s
  | .undefined => none

/-! ## `std::unordered_map` -/

namespace UMap

variable {κ ν : Type} [DecidableEq κ]

/-- `m.find(k)`: the value stored under `k`, `none` for `m.end()`. -/
def find : List (κ × ν) → κ → Option ν
  | [], _ => none
  | (k', v) :: m, k => if k' = k then some v else find m k

/-- `m.insert(std::make_pair(k, v))`: no effect when `k` is already a key. -/
def insert (m : List (κ × ν)) (k : κ) (v : ν) : List (κ × ν) :=
  match find m k with
  | some _ => m
  | none => m ++ [(k, v)]

/-- `m[k] = v`: overwrites the value of an existing key, inserts otherwise. -/
def assign : List (κ × ν) → κ → ν → List (κ × ν)
  | [], k, v => [(k, v)]
  | (k', v') :: m, k, v => if k' = k then (k', v) :: m else (k', v') :: assign m k v

/-- `m.at(k)`: throws `std::out_of_range` when `k` is not a key. -/
def atKey (m : List (κ × ν)) (k : κ) : Except Exn ν :=
  match find m k with
  | some v => .ok v
  | none => .error .out_of_range

/-- `m.erase(k)`. -/
def erase (m : List (κ × ν)) (k : κ) : List (κ × ν) :=
  m.filter (fun p => decide (p.1 ≠ k))

/-- `m.size()`. -/
def size (m : List (κ × ν)) : Nat := m.length

end UMap

/-! ## Edges and nodes (`node.hpp`) -/

/-- `typedef std::size_t EdgeData;` (containers.hpp). -/
abbrev EdgeData := Nat

/-- Modelled from the spec: `edge.hpp` is not among the sources. An edge is a directed arc
tagged with its action data that refers to its source and destination node without owning
them; `node.hpp` and `graph.hpp` use it through `Edge(data)`, `getSource`, `getDestination`,
`setSource` and `setDestination`. `none` is the null pointer. -/
structure Edge where
  data_ : EdgeData
  source_ : Option Ptr
  destination_ : Option Ptr
  deriving DecidableEq, Repr

/-- `new Edge(data)`: the constructor receives the data only, so no endpoint is set. -/
def Edge.init (data : EdgeData) : Edge :=
  { data_ := data, source_ := none, destination_ := none }

/-- `class Node` of node.hpp, with the identifier type `ι` (`std::size_t` in node.hpp,
`std::string` in graph.hpp) and the data type `δ` (`NodeData`) left generic. -/
structure Node (ι δ : Type) where
  visited : Bool
  id_ : ι
  data_ : δ
  parents_ : List (ι × Ptr)
  children_ : List (ι × Ptr)
  deriving DecidableEq, Repr

/-- The free store: every `Node` and `Edge` allocated so far, by address. -/
structure Heap (ι δ : Type) where
  nodes : List (Node ι δ)
  edges : List Edge
  deriving DecidableEq, Repr

namespace Node

variable {ι δ : Type} [DecidableEq ι]

/-- `Node::Node(identifier, data)`. -/
def init (identifier : ι) (data : δ) : Node ι δ :=
  { visited := false, id_ := identifier, data_ := data, parents_ := [], children_ := [] }

/-- `Node::hasSuccessor`. -/
def hasSuccessor (self : Node ι δ) : Bool := !self.children_.isEmpty

/-- `Node::hasPredecessor`. -/
def hasPredecessor (self : Node ι δ) : Bool := !self.parents_.isEmpty

/-- `Node::getSuccessor`: `children_.at(index)`. -/
def getSuccessor (self : Node ι δ) (index : ι) : Except Exn Ptr :=
  UMap.atKey self.children_ index

/-- `Node::getPredecessor`: `parents_.at(index)`. -/
def getPredecessor (self : Node ι δ) (index : ι) : Except Exn Ptr :=
  UMap.atKey self.parents_ index

/-- `e->getSource()->id_` for the edge at address `e`; `none` when a pointer on the way is
null or dangling (undefined behaviour in C++). -/
def sourceId (h : Heap ι δ) (e : Ptr) : Option ι :=
  match h.edges[e]? with
  | none => none
  | some ed =>
    match ed.source_ with
    | none => none
    | some p => (h.nodes[p]?).map (fun n => n.id_)

/-- `e->getDestination()->id_` for the edge at address `e`; `none` when a pointer on the way
is null or dangling (undefined behaviour in C++). -/
def destinationId (h : Heap ι δ) (e : Ptr) : Option ι :=
  match h.edges[e]? with
  | none => none
  | some ed =>
    match ed.destination_ with
    | none => none
    | some p => (h.nodes[p]?).map (fun n => n.id_)

/-- `Node::addPredecessor`:
`parents_.insert(std::make_pair(predecessor->getSource()->id_, predecessor))`.
`none` is undefined behaviour. -/
def addPredecessor (h : Heap ι δ) (self : Node ι δ) (predecessor : Ptr) : Option (Node ι δ) :=
  match sourceId h predecessor with
  | none => none
  | some k => some { self with parents_ := UMap.insert self.parents_ k predecessor }

/-- `Node::addSuccessor`:
`children_.insert(std::make_pair(successor->getDestination()->id_, successor))`.
`none` is undefined behaviour. -/
def addSuccessor (h : Heap ι δ) (self : Node ι δ) (successor : Ptr) : Option (Node ι δ) :=
  match destinationId h successor with
  | none => none
  | some k => some { self with children_ := UMap.insert self.children_ k successor }

/-- `Node::removePredecessor`: `parents_.erase(predId)`. -/
def removePredecessor (self : Node ι δ) (predId : ι) : Node ι δ :=
  { self with parents_ := UMap.erase self.parents_ predId }

/-- `Node::removeSuccessor`: `children_.erase(succId)`. -/
def removeSuccessor (self : Node ι δ) (succId : ι) : Node ι δ :=
  { self with children_ := UMap.erase self.children_ succId }

/-- `Node::numberOfSuccessors`. -/
def numberOfSuccessors (self : Node ι δ) : Nat := UMap.size self.children_

/-- `Node::numberOfPredecessors`. -/
def numberOfPredecessors (self : Node ι δ) : Nat := UMap.size self.parents_

/-- `Node::getSuccessors`: the values of `children_`. -/
def getSuccessors (self : Node ι δ) : List Ptr := self.children_.map Prod.snd

/-- `Node::getPredecessors`: the values of `parents_`. -/
def getPredecessors (self : Node ι δ) : List Ptr := self.parents_.map Prod.snd

/-- The loop of `getSuccessorNodes` and `getPredecessorNodes`: the endpoint `get` reads from
each edge stored in an adjacency map, in the order of iteration; `none` when an edge pointer
dangles. A listed pointer can be null. -/
def endpoints (get : Edge → Option Ptr) (h : Heap ι δ) :
    List (ι × Ptr) → Option (List (Option Ptr))
  | [] => some []
  | kv :: m =>
    match h.edges[kv.2]?, endpoints get h m with
    | some ed, some ps => some (get ed :: ps)
    | _, _ => none

/-- `Node::getSuccessorNodes`: `elem.second->getDestination()` for every entry of
`children_`. -/
def getSuccessorNodes (h : Heap ι δ) (self : Node ι δ) : Option (List (Option Ptr)) :=
  endpoints (fun ed => ed.destination_) h self.children_

/-- `Node::getPredecessorNodes`: `elem.second->getSource()` for every entry of `parents_`. -/
def getPredecessorNodes (h : Heap ι δ) (self : Node ι δ) : Option (List (Option Ptr)) :=
  endpoints (fun ed => ed.source_) h self.parents_

/-- The identifier of the node a listed pointer refers to; `none` for a null or dangling
pointer (`p->id_`). -/
def idOf (h : Heap ι δ) (p : Option Ptr) : Option ι :=
  match p with
  | none => none
  | some q => (h.nodes[q]?).map fun n => n.id_

/-- A call of one of the two adjacency operations, with the edge it receives. -/
inductive AdjOp where
  | addSuccessor (e : Ptr)
  | addPredecessor (e : Ptr)
  deriving DecidableEq, Repr

/-- Runs a sequence of `addSuccessor` and `addPredecessor` calls on a node, the edges and
nodes on the free store staying as they are; `none` when one of the calls has undefined
behaviour. -/
def build (h : Heap ι δ) : Node ι δ → List AdjOp → Option (Node ι δ)
  | n, [] => some n
  | n, .addSuccessor e :: ops =>
    match addSuccessor h n e with
    | none => none
    | some n1 => build h n1 ops
  | n, .addPredecessor e :: ops =>
    match addPredecessor h n e with
    | none => none
    | some n1 => build h n1 ops

/-- The destination identifiers of the edges passed to the `addSuccessor` calls of a
sequence. -/
def addedDestinationIds (h : Heap ι δ) (ops : List AdjOp) : List ι :=
  ops.filterMap fun op =>
    match op with
    | .addSuccessor e => destinationId h e
    | .addPredecessor _ => none

/-- The source identifiers of the edges passed to the `addPredecessor` calls of a sequence. -/
def addedSourceIds (h : Heap ι δ) (ops : List AdjOp) : List ι :=
  ops.filterMap fun op =>
    match op with
    | .addSuccessor _ => none
    | .addPredecessor e => sourceId h e

end Node

/-! ## The graph container (`graph.hpp`) -/

/-- `class Graph`: the name-keyed node map `nodes_`, the edge vector `edges_`, and the free
store holding the nodes and edges the graph has allocated. `visitor_` is kept as the list of
vertex names it has been notified of (`visitor.hpp` is not among the sources; the visitor has
no access to the graph). Node identifiers are the `std::string` names. -/
structure Graph (δ : Type) where
  heap : Heap String δ
  nodes_ : List (String × Ptr)
  edges_ : List Ptr
  visitor_ : List String
  deriving DecidableEq, Repr

namespace Graph

variable {δ : Type}

/-- `Graph::Graph(visitor)`: no node, no edge. -/
def empty : Graph δ :=
  { heap := { nodes := [], edges := [] }, nodes_ := [], edges_ := [], visitor_ := [] }

/-- `Graph::numberOfNodes`: `nodes_.size()`. -/
def numberOfNodes (g : Graph δ) : Nat := UMap.size g.nodes_

/-- `Graph::numberOfEdges`: `edges_.size()`. -/
def numberOfEdges (g : Graph δ) : Nat := g.edges_.length

/-- The object `nodes_[node]->` refers to. For an absent name `operator[]` stores a null
pointer under it, which the arrow then dereferences: undefined behaviour, here `none`, as is a
dangling pointer. -/
def deref (g : Graph δ) (node : String) : Option (Node String δ) :=
  match UMap.find g.nodes_ node with
  | none => none
  | some p => g.heap.nodes[p]?

/-- `Graph::numberOfEdgesFromNode`:
`nodes_[node]->numberOfSuccessors(); return 1;` (the count is computed and dropped). -/
def numberOfEdgesFromNode (g : Graph δ) (node : String) : Outcome (Graph δ) Nat :=
  match g.deref node with
  | none => .undefined
  | some _ => .ok g 1

/-- `Graph::numberOfEdgesToNode`: `return nodes_[node]->numberOfPredecessors();`. -/
def numberOfEdgesToNode (g : Graph δ) (node : String) : Outcome (Graph δ) Nat :=
  match g.deref node with
  | none => .undefined
  | some n => .ok g n.numberOfPredecessors

/-- `Graph::insertNode`: allocates the node, `nodes_.insert(std::make_pair(nodeId, tempNode))`,
notifies the visitor and returns `nodes_.size() - 1`. -/
def insertNode (g : Graph δ) (nodeId : String) (data : δ) : Outcome (Graph δ) Nat :=
  let tempNode : Ptr := g.heap.nodes.length
  let nodes1 := UMap.insert g.nodes_ nodeId tempNode
  .ok { heap := { nodes := g.heap.nodes ++ [Node.init nodeId data], edges := g.heap.edges },
        nodes_ := nodes1,
        edges_ := g.edges_,
        visitor_ := g.visitor_ ++ [nodeId] }
      (UMap.size nodes1 - 1)

/-- `edges_.back()->setSource(p)`; `none` when `edges_` is empty or its last pointer dangles. -/
def backSetSource (g : Graph δ) (p : Ptr) : Option (Graph δ) :=
  match g.edges_.getLast? with
  | none => none
  | some e =>
    match g.heap.edges[e]? with
    | none => none
    | some ed =>
      some { g with heap := { g.heap with edges := g.heap.edges.set e { ed with source_ := some p } } }

/-- `edges_.back()->setDestination(p)`. -/
def backSetDestination (g : Graph δ) (p : Ptr) : Option (Graph δ) :=
  match g.edges_.getLast? with
  | none => none
  | some e =>
    match g.heap.edges[e]? with
    | none => none
    | some ed =>
      some { g with
        heap := { g.heap with edges := g.heap.edges.set e { ed with destination_ := some p } } }

/-- `p->addSuccessor(edges_.back())` for the node at address `p`. -/
def addSuccessorBack (g : Graph δ) (p : Ptr) : Option (Graph δ) :=
  match g.edges_.getLast?, g.heap.nodes[p]? with
  | some e, some n =>
    match Node.addSuccessor g.heap n e with
    | none => none
    | some n1 => some { g with heap := { g.heap with nodes := g.heap.nodes.set p n1 } }
  | _, _ => none

/-- `p->addPredecessor(edges_.back())` for the node at address `p`. -/
def addPredecessorBack (g : Graph δ) (p : Ptr) : Option (Graph δ) :=
  match g.edges_.getLast?, g.heap.nodes[p]? with
  | some e, some n =>
    match Node.addPredecessor g.heap n e with
    | none => none
    | some n1 => some { g with heap := { g.heap with nodes := g.heap.nodes.set p n1 } }
  | _, _ => none

/-- The message of the `std::range_error` thrown by `insertEdge`. -/
def unableToCreateEdge : Exn := .range_error "Unable to create edge."

/-- `Graph::insertEdge`, statement by statement (the text written to `std::cerr` is left out):
allocate the edge and push it; if the source is missing pop and throw, else set the source;
add the edge to the successors of the source; if the destination is missing pop and throw,
else set the destination; add the edge to the predecessors of the destination; return
`edges_.size()`. -/
def insertEdge (g : Graph δ) (data : EdgeData) (srcNodeId destNodeId : String) :
    Outcome (Graph δ) Nat :=
  let edge : Ptr := g.heap.edges.length
  let g1 : Graph δ :=
    { g with heap := { g.heap with edges := g.heap.edges ++ [Edge.init data] },
             edges_ := g.edges_ ++ [edge] }
  match UMap.find g1.nodes_ srcNodeId with
  | none => .thrown { g1 with edges_ := g1.edges_.dropLast } unableToCreateEdge
  | some src =>
    match g1.backSetSource src with
    | none => .undefined
    | some g2 =>
      match g2.addSuccessorBack src with
      | none => .undefined
      | some g3 =>
        match UMap.find g3.nodes_ destNodeId with
        | none => .thrown { g3 with edges_ := g3.edges_.dropLast } unableToCreateEdge
        | some dst =>
          match g3.backSetDestination dst with
          | none => .undefined
          | some g4 =>
            match g4.addPredecessorBack dst with
            | none => .undefined
            | some g5 => .ok g5 g5.edges_.length

/-- `Graph::insertEdges`: `insertEdge(data, srcNodeId, dst)` for each destination in order,
with no handler around the call, then `return edges_.size()`. -/
def insertEdges (g : Graph δ) (data : EdgeData) (srcNodeId : String) :
    List String → Outcome (Graph δ) Nat
  | [] => .ok g g.edges_.length
  | dst :: rest =>
    match g.insertEdge data srcNodeId dst with
    | .ok g1 _ => insertEdges g1 data srcNodeId rest
    | .thrown s e => .thrown s e
    | .undefined => .undefined

end Graph

/-! ## The XML input reader (`input_reader.hpp`) -/

/-- An element of a tinyxml2 document: its name, its attributes in document order and its
child elements in document order. -/
inductive XMLElement where
  | mk (name : String) (attributes : List (String × String)) (children : List XMLElement)

namespace XMLElement

/-- Name of the element. -/
def name : XMLElement → String
  | mk n _ _ => n

/-- Attributes of the element. -/
def attributes : XMLElement → List (String × String)
  | mk _ a _ => a

/-- Child elements of the element. -/
def children : XMLElement → List XMLElement
  | mk _ _ c => c

/-- `e->Attribute(name)`: the value of the first attribute called `name`, `none` for `NULL`. -/
def Attribute (e : XMLElement) (name : String) : Option String :=
  UMap.find e.attributes name

/-- The elements visited by
`for (c = e->FirstChildElement(name); c != nullptr; c = c->NextSiblingElement(name))`. -/
def childElements (e : XMLElement) (name : String) : List XMLElement :=
  e.children.filter (fun c => decide (c.name = name))

/-- `e->FirstChildElement(name)`, `none` for `nullptr`. -/
def FirstChildElement (e : XMLElement) (name : String) : Option XMLElement :=
  (e.childElements name).head?

end XMLElement

/-- `tinyxml2::XMLDocument`: the top-level elements of the loaded file. -/
structure XMLDocument where
  children : List XMLElement

/-- `doc->FirstChildElement(name)`. -/
def XMLDocument.FirstChildElement (d : XMLDocument) (name : String) : Option XMLElement :=
  (d.children.filter (fun c => decide (c.name = name))).head?

/-- The two values of `tinyxml2::XMLError` the reader uses. -/
inductive XMLError where
  | XML_SUCCESS
  | XML_ERROR_PARSING
  deriving DecidableEq, Repr

/-- `std::transform(s.begin(), s.end(), s.begin(), tolower)`: upper-case ASCII letters become
lower-case, every other character is kept. -/
def toLower (s : String) : String := String.mk (s.data.map Char.toLower)

/-- Modelled from the spec: `config::Action` (its header is not among the sources), a
catalogue entry with a name and a cost per agent name. `C` is the type of a cost. -/
structure Action (C : Type) where
  name : String
  costs : List (String × C)
  deriving DecidableEq, Repr

/-- Modelled from the spec: `config::Subassembly` (its header is not among the sources), a
catalogue entry with a name and, per agent name, the pair (reachable, interaction). -/
structure Subassembly where
  name : String
  reachability : List (String × (Bool × String))
  deriving DecidableEq, Repr

/-- Modelled from the spec: `config::Agent` (its header is not among the sources): name, host
and port. -/
structure Agent where
  name : String
  hostname : String
  port : String
  deriving DecidableEq, Repr

/-- Modelled from the spec: `config::Configuration` (its header is not among the sources): the
three catalogues, each keyed by name and written with `operator[]`. -/
structure Configuration (C : Type) where
  actions : List (String × Action C)
  subassemblies : List (String × Subassembly)
  agents : List (String × Agent)
  deriving DecidableEq, Repr

/-- The library side of cost parsing, taken as a parameter: the stream extraction behind
`is_float`, `std::stod`, and the constant `INT_MAX` converted to a cost. -/
structure CostParser (C : Type) where
  is_float : String → Bool
  stod : String → C
  INT_MAX : C

/-- The interface of `GraphGenerator` the reader calls (`graph_generator.hpp` is not among the
sources), taken as a parameter over the generator's state `G`, which includes the graph it
builds: the state after construction, `insertOr`, `insertAnd`, `insertEdge` with the flag it
returns, and `setRoot` with the flag it returns. -/
structure GraphGenerator (G : Type) where
  init : G
  insertOr : G → String → G
  insertAnd : G → String → G
  insertEdge : G → String → String → G × Bool
  setRoot : G → String → G × Bool

/-- `class InputReader`: the document, the graph generator with its graph, and the
configuration being filled. -/
structure InputReader (G C : Type) where
  doc : XMLDocument
  graph_gen : G
  config : Configuration C

namespace InputReader

variable {G C : Type}

/-- `InputReader::InputReader` once the file is loaded: fresh generator, empty configuration. -/
def init (gen : GraphGenerator G) (doc : XMLDocument) : InputReader G C :=
  { doc := doc, graph_gen := gen.init,
    config := { actions := [], subassemblies := [], agents := [] } }

/-- Loop of `parse_nodes` over the `node` children. -/
def parse_nodes_loop (gen : GraphGenerator G) (g : G) : List XMLElement → G × XMLError
  | [] => (g, .XML_SUCCESS)
  | child :: rest =>
    match child.Attribute "name" with
    | none => (g, .XML_ERROR_PARSING)
    | some node_name =>
      match child.Attribute "type" with
      | none => (g, .XML_ERROR_PARSING)
      | some node_type =>
        if node_type = "OR" then parse_nodes_loop gen (gen.insertOr g node_name) rest
        else if node_type = "AND" then parse_nodes_loop gen (gen.insertAnd g node_name) rest
        else (g, .XML_ERROR_PARSING)

/-- `InputReader::parse_nodes`. -/
def parse_nodes (gen : GraphGenerator G) (r : InputReader G C) (nodes_root : XMLElement) :
    InputReader G C × XMLError :=
  let res := parse_nodes_loop gen r.graph_gen (nodes_root.childElements "node")
  ({ r with graph_gen := res.1 }, res.2)

/-- Loop of `parse_edges` over the `edge` children: the flag `inserted` returned by the
generator is stored in a local that is never read. -/
def parse_edges_loop (gen : GraphGenerator G) (g : G) : List XMLElement → G × XMLError
  | [] => (g, .XML_SUCCESS)
  | child :: rest =>
    match child.Attribute "start" with
    | none => (g, .XML_ERROR_PARSING)
    | some start_node =>
      match child.Attribute "end" with
      | none => (g, .XML_ERROR_PARSING)
      | some end_node =>
        let inserted := gen.insertEdge g start_node end_node
        parse_edges_loop gen inserted.1 rest

/-- `InputReader::parse_edges`. -/
def parse_edges (gen : GraphGenerator G) (r : InputReader G C) (edges_root : XMLElement) :
    InputReader G C × XMLError :=
  let res := parse_edges_loop gen r.graph_gen (edges_root.childElements "edge")
  ({ r with graph_gen := res.1 }, res.2)

/-- `InputReader::parse_graph`. -/
def parse_graph (gen : GraphGenerator G) (r : InputReader G C) (graph_root : XMLElement) :
    InputReader G C × XMLError :=
  match graph_root.FirstChildElement "nodes" with
  | none => (r, .XML_ERROR_PARSING)
  | some nodes_e =>
    match parse_nodes gen r nodes_e with
    | (r1, .XML_ERROR_PARSING) => (r1, .XML_ERROR_PARSING)
    | (r1, .XML_SUCCESS) =>
      match graph_root.FirstChildElement "edges" with
      | none => (r1, .XML_ERROR_PARSING)
      | some edges_e =>
        match parse_edges gen r1 edges_e with
        | (r2, .XML_ERROR_PARSING) => (r2, .XML_ERROR_PARSING)
        | (r2, .XML_SUCCESS) => (r2, .XML_SUCCESS)

/-- Loop of `parse_costmap` over the `cost` children, filling `act`. -/
def parse_costmap_loop (cp : CostParser C) (act : Action C) :
    List XMLElement → Action C × XMLError
  | [] => (act, .XML_SUCCESS)
  | cost :: rest =>
    match cost.Attribute "agent" with
    | none => (act, .XML_ERROR_PARSING)
    | some agent_name =>
      match cost.Attribute "value" with
      | none => (act, .XML_ERROR_PARSING)
      | some value =>
        let cost_value := toLower value
        if cost_value = "inf" then
          parse_costmap_loop cp { act with costs := UMap.assign act.costs agent_name cp.INT_MAX } rest
        else if cp.is_float cost_value then
          parse_costmap_loop cp
            { act with costs := UMap.assign act.costs agent_name (cp.stod cost_value) } rest
        else (act, .XML_ERROR_PARSING)

/-- `InputReader::parse_costmap`. -/
def parse_costmap (cp : CostParser C) (costmap_e : XMLElement) (act : Action C) :
    Action C × XMLError :=
  parse_costmap_loop cp act (costmap_e.childElements "cost")

/-- Loop of `parse_actions` over the `action` children. -/
def parse_actions_loop (cp : CostParser C) (config : Configuration C) :
    List XMLElement → Configuration C × XMLError
  | [] => (config, .XML_SUCCESS)
  | action :: rest =>
    match action.Attribute "name" with
    | none => (config, .XML_ERROR_PARSING)
    | some action_name =>
      match action.FirstChildElement "costmap" with
      | none => (config, .XML_ERROR_PARSING)
      | some costmap_e =>
        match parse_costmap cp costmap_e { name := action_name, costs := [] } with
        | (_, .XML_ERROR_PARSING) => (config, .XML_ERROR_PARSING)
        | (action_temp, .XML_SUCCESS) =>
          parse_actions_loop cp
            { config with actions := UMap.assign config.actions action_name action_temp } rest

/-- `InputReader::parse_actions`. -/
def parse_actions (cp : CostParser C) (r : InputReader G C) (actions_root : XMLElement) :
    InputReader G C × XMLError :=
  let res := parse_actions_loop cp r.config (actions_root.childElements "action")
  ({ r with config := res.1 }, res.2)

/-- Loop of `parse_reachmap` over the `reach` children, filling `subassembly`; `actions` is
`config->actions`. With `reachable` equal to false the entry is stored and the interaction
is then looked up in the action catalogue; with true it is stored without a lookup. -/
def parse_reachmap_loop (actions : List (String × Action C)) (subassembly : Subassembly) :
    List XMLElement → Subassembly × XMLError
  | [] => (subassembly, .XML_SUCCESS)
  | reach :: rest =>
    match reach.Attribute "agent" with
    | none => (subassembly, .XML_ERROR_PARSING)
    | some agent_name =>
      match reach.Attribute "reachable" with
      | none => (subassembly, .XML_ERROR_PARSING)
      | some reachable =>
        match reach.Attribute "interaction" with
        | none => (subassembly, .XML_ERROR_PARSING)
        | some interaction0 =>
          let agent_part_reach := toLower reachable
          let interaction := toLower interaction0
          if agent_part_reach = "false" then
            let sub1 : Subassembly :=
              { subassembly with
                reachability := UMap.assign subassembly.reachability agent_name (false, interaction) }
            match UMap.find actions interaction with
            | none => (sub1, .XML_ERROR_PARSING)
            | some _ => parse_reachmap_loop actions sub1 rest
          else if agent_part_reach = "true" then
            parse_reachmap_loop actions
              { subassembly with
                reachability := UMap.assign subassembly.reachability agent_name (true, interaction) }
              rest
          else (subassembly, .XML_ERROR_PARSING)

/-- `InputReader::parse_reachmap`. -/
def parse_reachmap (actions : List (String × Action C)) (reachmap_root : XMLElement)
    (subassembly : Subassembly) : Subassembly × XMLError :=
  parse_reachmap_loop actions subassembly (reachmap_root.childElements "reach")

/-- Loop of `parse_subassemblies` over the `subassembly` children. -/
def parse_subassemblies_loop (config : Configuration C) :
    List XMLElement → Configuration C × XMLError
  | [] => (config, .XML_SUCCESS)
  | subassembly :: rest =>
    match subassembly.Attribute "name" with
    | none => (config, .XML_ERROR_PARSING)
    | some subassembly_name =>
      match subassembly.FirstChildElement "reachmap" with
      | none => (config, .XML_ERROR_PARSING)
      | some reachmap_e =>
        match parse_reachmap config.actions reachmap_e
            { name := subassembly_name, reachability := [] } with
        | (_, .XML_ERROR_PARSING) => (config, .XML_ERROR_PARSING)
        | (subassembly_temp, .XML_SUCCESS) =>
          parse_subassemblies_loop
            { config with
              subassemblies := UMap.assign config.subassemblies subassembly_name subassembly_temp }
            rest

/-- `InputReader::parse_subassemblies`. -/
def parse_subassemblies (r : InputReader G C) (subass_root : XMLElement) :
    InputReader G C × XMLError :=
  let res := parse_subassemblies_loop r.config (subass_root.childElements "subassembly")
  ({ r with config := res.1 }, res.2)

/-- Loop of `parse_agents` over the `agent` children. -/
def parse_agents_loop (config : Configuration C) :
    List XMLElement → Configuration C × XMLError
  | [] => (config, .XML_SUCCESS)
  | agent :: rest =>
    match agent.Attribute "name" with
    | none => (config, .XML_ERROR_PARSING)
    | some agent_name =>
      match agent.Attribute "host" with
      | none => (config, .XML_ERROR_PARSING)
      | some host =>
        match agent.Attribute "port" with
        | none => (config, .XML_ERROR_PARSING)
        | some port =>
          parse_agents_loop
            { config with
              agents := UMap.assign config.agents agent_name
                { name := agent_name, hostname := host, port := port } }
            rest

/-- `InputReader::parse_agents`. -/
def parse_agents (r : InputReader G C) (agents_root : XMLElement) :
    InputReader G C × XMLError :=
  let res := parse_agents_loop r.config (agents_root.childElements "agent")
  ({ r with config := res.1 }, res.2)

/-- What `read` hands back: the graph pointer, the configuration pointer (`none` for
`nullptr`) and the success flag. -/
abbrev ReadResult (G C : Type) := Option G × Option (Configuration C) × Bool

/-- The tuple `(nullptr, nullptr, false)`. -/
def readFailure : ReadResult G C := (none, none, false)

/-- `InputReader::read`: the reader after the call and the returned tuple. -/
def read (gen : GraphGenerator G) (cp : CostParser C) (r : InputReader G C)
    (root_name : String) : InputReader G C × ReadResult G C :=
  match r.doc.FirstChildElement root_name with
  | none => (r, readFailure)
  | some root =>
    match root.FirstChildElement "graph" with
    | none => (r, readFailure)
    | some graph_e =>
      match parse_graph gen r graph_e with
      | (r1, .XML_ERROR_PARSING) => (r1, readFailure)
      | (r1, .XML_SUCCESS) =>
        match root.FirstChildElement "actions" with
        | none => (r1, readFailure)
        | some actions_e =>
          match parse_actions cp r1 actions_e with
          | (r2, .XML_ERROR_PARSING) => (r2, readFailure)
          | (r2, .XML_SUCCESS) =>
            match root.FirstChildElement "subassemblies" with
            | none => (r2, readFailure)
            | some subassemblies_e =>
              match parse_subassemblies r2 subassemblies_e with
              | (r3, .XML_ERROR_PARSING) => (r3, readFailure)
              | (r3, .XML_SUCCESS) =>
                match root.FirstChildElement "agents" with
                | none => (r3, readFailure)
                | some agents_e =>
                  match parse_agents r3 agents_e with
                  | (r4, .XML_ERROR_PARSING) => (r4, readFailure)
                  | (r4, .XML_SUCCESS) =>
                    match root.Attribute "root" with
                    | none => (r4, readFailure)
                    | some attribute_text =>
                      match gen.setRoot r4.graph_gen attribute_text with
                      | (g5, false) => ({ r4 with graph_gen := g5 }, readFailure)
                      | (g5, true) =>
                        ({ r4 with graph_gen := g5 }, (some g5, some r4.config, true))

end InputReader

/-! ## Node data (`containers.hpp`, `node.hpp`) -/

/-- `enum class NodeType{AND, OR};`. -/
inductive NodeType where
  | AND
  | OR
  deriving DecidableEq, Repr

/-- `class NodeData` of containers.hpp; `R` stands for `double`. -/
structure NodeData (R : Type) where
  cost : R
  type : NodeType
  name : String
  worker : String
  terminal : Bool
  marked : Bool
  solved : Bool
  solution : Bool
  deriving DecidableEq, Repr

namespace NodeData

variable {R : Type}

/-- A default-constructed `NodeData`, with the default member initialisers of the class;
`type` has none, its value is whatever the caller assigns. -/
def fresh [Zero R] (type : NodeType) : NodeData R :=
  { cost := 0, type := type, name := "", worker := "",
    terminal := true, marked := false, solved := false, solution := false }

/-- `NodeData::reset`: `solved = false; solution = false;` (the line for `marked` is
commented out). -/
def reset (d : NodeData R) : NodeData R :=
  { d with solved := false, solution := false }

/-- `NodeData::isGoal` of node.hpp over the member `subassemblies`, a map whose values are
`Node *` (the class declaring it is not among the sources): `false` at the first referenced
node that has a successor, `true` when the loop ends. `store` is the free store of nodes;
`none` is the dereference of a dangling pointer. -/
def isGoal {κ ι δ : Type} (store : List (Node ι δ)) : List (κ × Ptr) → Option Bool
  | [] => some true
  | x :: rest =>
    match store[x.2]? with
    | none => none
    | some n => if n.hasSuccessor then some false else isGoal store rest

end NodeData

/-! ## The entry point (`main.cpp`) -/

/-- How the call of the planner ends (`planner.hpp` is not among the sources): it returns, or
it throws a `std::runtime_error`, which the handler in `main` catches. -/
inductive PlannerRun where
  | returns
  | runtime_error
  deriving DecidableEq, Repr

/-- What `main` depends on besides the reader: the generator and cost parsing the reader
uses, `program.parse_args` (`none`: it throws `std::runtime_error`), the loading of the file
by the reader's constructor (`none`: the constructor throws `std::runtime_error`), and the
planner. -/
structure MainEnv (G C : Type) where
  gen : GraphGenerator G
  cp : CostParser C
  parse_args : List String → Option String
  LoadFile : String → Option XMLDocument
  planner : G → Configuration C → PlannerRun

/-- A run of `main`: the exit code and the arguments of the planner call, if it was made. -/
structure MainResult (G C : Type) where
  exit_code : Nat
  planned : Option (G × Configuration C)

/-- `main`: `exit(0)` when `parse_args` throws; `return 0` when the constructor of the reader
throws; `return false` when the flag of `read("assembly")` is false; otherwise the planner is
called on the returned graph and configuration, `return 0` if it throws `std::runtime_error`
and `return 1` at the end. `none`: a null pointer returned with a true flag is dereferenced. -/
def main {G C : Type} (env : MainEnv G C) (argv : List String) : Option (MainResult G C) :=
  match env.parse_args argv with
  | none => some { exit_code := 0, planned := none }
  | some input =>
    match env.LoadFile input with
    | none => some { exit_code := 0, planned := none }
    | some doc =>
      match (InputReader.read env.gen env.cp (InputReader.init env.gen doc) "assembly").2 with
      | (_, _, false) => some { exit_code := 0, planned := none }
      | (some assembly, some config, true) =>
        match env.planner assembly config with
        | .runtime_error => some { exit_code := 0, planned := some (assembly, config) }
        | .returns => some { exit_code := 1, planned := some (assembly, config) }
      | (_, _, true) => none

/-! ## Predicates used in the statements -/

/-- Every reachability entry with `reachable` false, of every subassembly of the catalogue,
names an interaction that is the name of an action of the catalogue. -/
def InteractionsResolve {C : Type} (cfg : Configuration C) : Prop :=
  ∀ entry ∈ cfg.subassemblies, ∀ reach ∈ entry.2.reachability,
    reach.2.1 = false → (UMap.find cfg.actions reach.2.2).isSome = true

/-- Every reachability entry, of every subassembly of the catalogue, names an interaction that
is the name of an action of the catalogue. -/
def AllInteractionsResolve {C : Type} (cfg : Configuration C) : Prop :=
  ∀ entry ∈ cfg.subassemblies, ∀ reach ∈ entry.2.reachability,
    (UMap.find cfg.actions reach.2.2).isSome = true

/-- The test `parse_costmap` applies to the `value` attribute of a cost: lower-cased, it is
`inf` or `is_float` holds of it. -/
def CostParser.accepts {C : Type} (cp : CostParser C) (value : String) : Bool :=
  decide (toLower value = "inf") || cp.is_float (toLower value)

/-- The cost `parse_costmap` stores for an accepted `value`: `INT_MAX` for `inf`, the number
read by `std::stod` otherwise. -/
def CostParser.stored {C : Type} (cp : CostParser C) (value : String) : C :=
  if toLower value = "inf" then cp.INT_MAX else cp.stod (toLower value)

instance {C : Type} (cfg : Configuration C) : Decidable (InteractionsResolve cfg) := by
  unfold InteractionsResolve
  infer_instance

instance {C : Type} (cfg : Configuration C) : Decidable (AllInteractionsResolve cfg) := by
  unfold AllInteractionsResolve
  infer_instance

/-- The element has every attribute of the list. -/
def hasAttributes (e : XMLElement) (names : List String) : Prop :=
  ∀ a ∈ names, (e.Attribute a).isSome = true

/-- The document has every element and attribute `read(root_name)` asks for: the root
element with its `root` attribute, in it the `graph` element (with its `nodes` and `edges`
elements), the `actions`, `subassemblies` and `agents` elements, a `costmap` in every action
and a `reachmap` in every subassembly, and the attributes of every node, edge, action, cost,
subassembly, reach and agent element. -/
def StructurallyComplete (doc : XMLDocument) (root_name : String) : Prop :=
  ∃ root graph_e nodes_e edges_e actions_e subs_e agents_e,
    doc.FirstChildElement root_name = some root ∧
    root.FirstChildElement "graph" = some graph_e ∧
    graph_e.FirstChildElement "nodes" = some nodes_e ∧
    graph_e.FirstChildElement "edges" = some edges_e ∧
    root.FirstChildElement "actions" = some actions_e ∧
    root.FirstChildElement "subassemblies" = some subs_e ∧
    root.FirstChildElement "agents" = some agents_e ∧
    hasAttributes root ["root"] ∧
    (∀ n ∈ nodes_e.childElements "node", hasAttributes n ["name", "type"]) ∧
    (∀ e ∈ edges_e.childElements "edge", hasAttributes e ["start", "end"]) ∧
    (∀ a ∈ actions_e.childElements "action", hasAttributes a ["name"] ∧
      ∃ cm, a.FirstChildElement "costmap" = some cm ∧
        ∀ c ∈ cm.childElements "cost", hasAttributes c ["agent", "value"]) ∧
    (∀ s ∈ subs_e.childElements "subassembly", hasAttributes s ["name"] ∧
      ∃ rm, s.FirstChildElement "reachmap" = some rm ∧
        ∀ r ∈ rm.childElements "reach", hasAttributes r ["agent", "reachable", "interaction"]) ∧
    (∀ a ∈ agents_e.childElements "agent", hasAttributes a ["name", "host", "port"])

/-! ## Concrete data used to run the definitions -/

/-- Modelled from the spec: the graph a `GraphGenerator` builds (`graph_generator.hpp` is not
among the sources): typed nodes keyed by unique name, edges with their source and
destination name, and the root name. -/
structure GenGraph where
  nodes : List (String × NodeType)
  edges : List (String × String)
  root_ : Option String
  deriving DecidableEq, Repr

/-- Modelled from the spec: the operations of `GraphGenerator` (`graph_generator.hpp` is not
among the sources). `insertOr` and `insertAnd` insert a node of that type; `insertEdge`
fails, inserting nothing, when the source or the destination is absent, as the graph's
`insertEdge` does (missing endpoint); `setRoot` fails when the name is not the name of a
node. -/
def specGenerator : GraphGenerator GenGraph where
  init := { nodes := [], edges := [], root_ := none }
  insertOr g n := { g with nodes := UMap.insert g.nodes n NodeType.OR }
  insertAnd g n := { g with nodes := UMap.insert g.nodes n NodeType.AND }
  insertEdge g s d :=
    if (UMap.find g.nodes s).isSome && (UMap.find g.nodes d).isSome then
      ({ g with edges := g.edges ++ [(s, d)] }, true)
    else (g, false)
  setRoot g n :=
    if (UMap.find g.nodes n).isSome then ({ g with root_ := some n }, true) else (g, false)

/-- Every edge endpoint and the root name of the generated graph resolve to a node of the
graph, and the root name is set. -/
def GenGraph.Complete (g : GenGraph) : Prop :=
  (∀ e ∈ g.edges, (UMap.find g.nodes e.1).isSome = true ∧ (UMap.find g.nodes e.2).isSome = true) ∧
  ∃ root, g.root_ = some root ∧ (UMap.find g.nodes root).isSome = true

/-- A cost parser for running the reader on concrete documents: it recognises the unsigned
decimal integers, which are float literals, and reads their value. -/
def decimalCosts : CostParser Nat where
  is_float s := !s.data.isEmpty && s.data.all Char.isDigit
  stod s := s.data.foldl (fun n c => 10 * n + (c.toNat - 48)) 0
  INT_MAX := 2147483647

/-- The graph with the single node `a` (data 0) and no edge: `insertNode("a", 0)` on the
empty graph. -/
def graphA : Graph Nat :=
  { heap := { nodes := [Node.init "a" 0], edges := [] },
    nodes_ := [("a", 0)], edges_ := [], visitor_ := ["a"] }

/-- The graph with the nodes `a` and `b` and no edge: `insertNode("b", 1)` on `graphA`. -/
def graphAB : Graph Nat :=
  { heap := { nodes := [Node.init "a" 0, Node.init "b" 1], edges := [] },
    nodes_ := [("a", 0), ("b", 1)], edges_ := [], visitor_ := ["a", "b"] }

/-- The node `a` with one outgoing edge, stored under the key `b` at address 0. -/
def linkedNodeA : Node String Nat :=
  { visited := false, id_ := "a", data_ := 0, parents_ := [], children_ := [("b", 0)] }

/-- A graph with the nodes `a` and `b` and one edge from `a` to `b`, registered as a successor
of `a` and a predecessor of `b`. -/
def linkedGraph : Graph Nat :=
  { heap :=
      { nodes := [linkedNodeA,
          { visited := false, id_ := "b", data_ := 1, parents_ := [("a", 0)], children_ := [] }],
        edges := [{ data_ := 7, source_ := some 0, destination_ := some 1 }] },
    nodes_ := [("a", 0), ("b", 1)], edges_ := [0], visitor_ := ["a", "b"] }

/-- The node obtained from the empty node `a` by adding the edge of `linkedGraph` as a
successor and then as a predecessor. -/
def builtNodeA : Node String Nat :=
  { visited := false, id_ := "a", data_ := 0, parents_ := [("a", 0)], children_ := [("b", 0)] }

/-- An element without children. -/
def leaf (name : String) (attributes : List (String × String)) : XMLElement :=
  XMLElement.mk name attributes []

/-- An element without attributes. -/
def group (name : String) (children : List XMLElement) : XMLElement :=
  XMLElement.mk name [] children

/-- The element `<action name="Unlock"> <costmap/> </action>`. -/
def unlockAction : XMLElement :=
  XMLElement.mk "action" [("name", "Unlock")] [group "costmap" []]

/-- The element
`<reachmap> <reach agent="x" reachable="false" interaction="Unlock"/> </reachmap>`. -/
def unlockReachmap : XMLElement :=
  group "reachmap"
    [leaf "reach" [("agent", "x"), ("reachable", "false"), ("interaction", "Unlock")]]

/-- The document
`<assembly root="a"> <graph> <nodes> <node name="a" type="OR"/> </nodes>
<edges> <edge start="a" end="zz"/> </edges> </graph>
<actions> <action name="split"> <costmap> <cost agent="x" value="5"/> </costmap> </action>
</actions>
<subassemblies> <subassembly name="a"> <reachmap>
<reach agent="x" reachable="true" interaction="nothing"/> </reachmap> </subassembly>
</subassemblies>
<agents> <agent name="x" host="h" port="1"/> </agents> </assembly>`:
its only edge ends at a node `zz` that is not declared, and its only reach entry is
reachable and names an interaction `nothing` that is not an action. -/
def danglingDoc : XMLDocument :=
  { children :=
      [XMLElement.mk "assembly" [("root", "a")]
        [group "graph"
          [group "nodes" [leaf "node" [("name", "a"), ("type", "OR")]],
           group "edges" [leaf "edge" [("start", "a"), ("end", "zz")]]],
         group "actions"
          [XMLElement.mk "action" [("name", "split")]
            [group "costmap" [leaf "cost" [("agent", "x"), ("value", "5")]]]],
         group "subassemblies"
          [XMLElement.mk "subassembly" [("name", "a")]
            [group "reachmap"
              [leaf "reach" [("agent", "x"), ("reachable", "true"), ("interaction", "nothing")]]]],
         group "agents" [leaf "agent" [("name", "x"), ("host", "h"), ("port", "1")]]]] }

/-- The invariant of the spec on node data: a terminal node is solved and has cost 0. -/
def NodeData.TerminalSolved {R : Type} [Zero R] (d : NodeData R) : Prop :=
  d.terminal = true → d.solved = true ∧ d.cost = 0

/-- A terminal node data that is solved with cost 0. -/
def solvedLeaf : NodeData Int :=
  { cost := 0, type := NodeType.OR, name := "A", worker := "",
    terminal := true, marked := false, solved := true, solution := false }

/-- The document of the end-to-end scenario with an interaction:
`<assembly root="P"> <graph> <nodes> <node name="P" type="OR"/> <node name="AB" type="AND"/>
</nodes> <edges> <edge start="P" end="AB"/> </edges> </graph>
<actions> <action name="split"> <costmap> <cost agent="agentX" value="5"/>
<cost agent="agentY" value="INF"/> </costmap> </action>
<action name="unlock"> <costmap> <cost agent="agentY" value="2"/> </costmap> </action>
</actions>
<subassemblies> <subassembly name="P"> <reachmap>
<reach agent="agentX" reachable="False" interaction="unlock"/>
<reach agent="agentY" reachable="true" interaction="none"/> </reachmap> </subassembly>
</subassemblies>
<agents> <agent name="agentX" host="h" port="1"/> </agents> </assembly>`. -/
def scenarioDoc : XMLDocument :=
  { children :=
      [XMLElement.mk "assembly" [("root", "P")]
        [group "graph"
          [group "nodes"
            [leaf "node" [("name", "P"), ("type", "OR")],
             leaf "node" [("name", "AB"), ("type", "AND")]],
           group "edges" [leaf "edge" [("start", "P"), ("end", "AB")]]],
         group "actions"
          [XMLElement.mk "action" [("name", "split")]
            [group "costmap"
              [leaf "cost" [("agent", "agentX"), ("value", "5")],
               leaf "cost" [("agent", "agentY"), ("value", "INF")]]],
           XMLElement.mk "action" [("name", "unlock")]
            [group "costmap" [leaf "cost" [("agent", "agentY"), ("value", "2")]]]],
         group "subassemblies"
          [XMLElement.mk "subassembly" [("name", "P")]
            [group "reachmap"
              [leaf "reach"
                [("agent", "agentX"), ("reachable", "False"), ("interaction", "unlock")],
               leaf "reach"
                [("agent", "agentY"), ("reachable", "true"), ("interaction", "none")]]]],
         group "agents" [leaf "agent" [("name", "agentX"), ("host", "h"), ("port", "1")]]]] }

/-- An environment for running `main`: the file name is the first argument after the program
name, two files exist (`scenario.xml` holding `scenarioDoc` and `dangling.xml` holding
`danglingDoc`), and the planner returns. -/
def sampleEnv : MainEnv GenGraph Nat where
  gen := specGenerator
  cp := decimalCosts
  parse_args argv :=
    match argv with
    | [_, filename] => some filename
    | _ => none
  LoadFile path :=
    if path = "scenario.xml" then some scenarioDoc
    else if path = "dangling.xml" then some danglingDoc
    else none
  planner _ _ := PlannerRun.returns

/-! ## The planner -/

/-- Modelled from the spec: the sentinel cost that marks an agent as unable to perform an
action at any price (`planner.hpp` is not among the sources); it is the saturated maximum the
reader stores for `inf`. -/
def infeasibleCost : Nat := 2147483647

/-- Modelled from the spec: an edge of the AND/OR graph the planner walks (`planner.hpp` and
the graph it takes are not among the sources): the action it is tagged with and the name of
its destination node. -/
structure PlanEdge where
  action : String
  destination : String
  deriving DecidableEq, Repr

/-- Modelled from the spec: a node of the AND/OR graph the planner walks: its type and its
outgoing edges in insertion order. -/
structure PlanNode where
  type : NodeType
  edges : List PlanEdge
  deriving DecidableEq, Repr

/-- Modelled from the spec: the graph the planner walks, nodes keyed by unique name. -/
abbrev PlanGraph := List (String × PlanNode)

/-- Modelled from the spec: a feasible (agent, action) pair at an OR-node, with its cost. -/
structure Candidate where
  cost : Nat
  agent : String
  action : String
  deriving DecidableEq, Repr

/-- Modelled from the spec: the outcome of solving a node: the recursion budget is exhausted,
the node cannot be solved, or it is solved with a cost and, at an OR-node with successors, the
chosen (agent, action). -/
inductive Solved where
  | outOfFuel
  | unsolvable
  | solved (cost : Nat) (choice : Option (String × String))
  deriving DecidableEq, Repr

/-- Modelled from the spec: the agents with a finite cost for an action, in catalogue order. -/
def finiteCosts (a : Action Nat) : List (String × Nat) :=
  a.costs.filter fun p => decide (p.2 ≠ infeasibleCost)

/-- The least number of a list, `none` for the empty list. -/
def cheapest : List Nat → Option Nat
  | [] => none
  | c :: cs =>
    match cheapest cs with
    | none => some c
    | some m => some (min c m)

/-- Modelled from the spec: the cost of unlocking reachability with an interaction: the cost of
the interaction action for the best agent that can perform it, `none` when the interaction is
not an action or no agent has a finite cost for it. -/
def interactionCost (cfg : Configuration Nat) (interaction : String) : Option Nat :=
  match UMap.find cfg.actions interaction with
  | none => none
  | some a => cheapest ((finiteCosts a).map Prod.snd)

/-- Modelled from the spec: the cost of an (agent, action) pair at the node `node`, given the
cost of the action for the agent and the solved cost of the destination. If the subassembly
entry of the node marks the agent as reachable it is the action cost plus the destination
cost; if not, the interaction cost is added, and the pair is infeasible (`none`) when no agent
can perform the interaction. An agent without an entry is not marked as reachable and has no
interaction. -/
def pairCost (cfg : Configuration Nat) (node agent : String) (actionCost destCost : Nat) :
    Option Nat :=
  match UMap.find cfg.subassemblies node with
  | none => none
  | some sub =>
    match UMap.find sub.reachability agent with
    | none => none
    | some (true, _) => some (actionCost + destCost)
    | some (false, interaction) =>
      match interactionCost cfg interaction with
      | none => none
      | some ic => some (ic + actionCost + destCost)

/-- Modelled from the spec: the feasible pairs one outgoing edge contributes, one per agent
with a finite cost for the action of the edge, in catalogue order. -/
def edgeCandidates (cfg : Configuration Nat) (node : String) (e : PlanEdge) (destCost : Nat) :
    List Candidate :=
  match UMap.find cfg.actions e.action with
  | none => []
  | some a =>
    (finiteCosts a).filterMap fun p =>
      (pairCost cfg node p.1 p.2 destCost).map fun c =>
        { cost := c, agent := p.1, action := e.action }

/-- Modelled from the spec: the minimum over the candidates, ties going to the one discovered
first. -/
def pickMin : List Candidate → Option Candidate
  | [] => none
  | c :: cs =>
    match pickMin cs with
    | none => some c
    | some m => if m.cost < c.cost then some m else some c

/-- Modelled from the spec: an AND-node is solved by solving every successor and summing the
solved costs; it is unsolvable when one of them is. `solveNode` solves a node by name. -/
def solveChildren (solveNode : String → Solved) : List PlanEdge → Solved
  | [] => .solved 0 none
  | e :: es =>
    match solveNode e.destination, solveChildren solveNode es with
    | .outOfFuel, _ => .outOfFuel
    | _, .outOfFuel => .outOfFuel
    | .solved c _, .solved s _ => .solved (c + s) none
    | _, _ => .unsolvable

/-- Modelled from the spec: the feasible pairs across all outgoing edges of an OR-node, each
destination being solved first; an edge whose destination is unsolvable contributes none.
The result is `none` when the recursion budget is exhausted. -/
def orCandidates (cfg : Configuration Nat) (node : String) (solveNode : String → Solved) :
    List PlanEdge → Option (List Candidate)
  | [] => some []
  | e :: es =>
    match solveNode e.destination, orCandidates cfg node solveNode es with
    | .outOfFuel, _ => none
    | _, none => none
    | .solved d _, some cs => some (edgeCandidates cfg node e d ++ cs)
    | .unsolvable, some cs => some cs

/-- Modelled from the spec: the planner's recursive cost propagation (`planner.hpp` is not
among the sources). A node without successors is solved with cost 0; an AND-node sums its
successors; an OR-node takes the minimum over its feasible (agent, action) pairs and is
unsolvable when there is none. `fuel` bounds the depth of the recursion. -/
def solve (cfg : Configuration Nat) (g : PlanGraph) : Nat → String → Solved
  | 0, _ => .outOfFuel
  | fuel + 1, name =>
    match UMap.find g name with
    | none => .unsolvable
    | some node =>
      if node.edges.isEmpty then .solved 0 none
      else
        match node.type with
        | .AND => solveChildren (solve cfg g fuel) node.edges
        | .OR =>
          match orCandidates cfg name (solve cfg g fuel) node.edges with
          | none => .outOfFuel
          | some cs =>
            match pickMin cs with
            | none => .unsolvable
            | some m => .solved m.cost (some (m.agent, m.action))

/-- The graph of the end-to-end scenario: OR-root `P` with one edge, tagged `split`, to the
AND-node `AB`, whose successors are the terminals `A` and `B`. -/
def scenarioGraph : PlanGraph :=
  [("P", { type := NodeType.OR, edges := [{ action := "split", destination := "AB" }] }),
   ("AB", { type := NodeType.AND,
            edges := [{ action := "", destination := "A" }, { action := "", destination := "B" }] }),
   ("A", { type := NodeType.OR, edges := [] }),
   ("B", { type := NodeType.OR, edges := [] })]

/-- The configuration of the end-to-end scenario with an interaction: `split` costs 5 for
`agentX` and 7 for `agentY`, `unlock` costs 2 for `agentY`, and `P` is not reachable for
`agentX`, with the interaction `unlock`. -/
def scenarioConfig : Configuration Nat :=
  { actions :=
      [("split", { name := "split", costs := [("agentX", 5), ("agentY", 7)] }),
       ("unlock", { name := "unlock", costs := [("agentY", 2)] })],
    subassemblies :=
      [("P", { name := "P", reachability := [("agentX", false, "unlock")] })],
    agents := [] }

end AssemblyPlanner

namespace AssemblyPlanner

/-! ## Lemmas on `UMap` -/

namespace UMap

variable {κ ν : Type} [DecidableEq κ]

theorem find_append (m m2 : List (κ × ν)) (k : κ) :
    find (m ++ m2) k = (find m k).orElse (fun _ => find m2 k) := by
  induction m with
  | nil => simp [find]
  | cons x m ih =>
    obtain ⟨k1, v1⟩ := x
    by_cases h : k1 = k
    · simp [find, h]
    · simp [find, h, ih]

theorem find_insert_of_find (m : List (κ × ν)) (k k0 : κ) (v v0 : ν)
    (h : find m k0 = some v0) : find (insert m k v) k0 = some v0 := by
  unfold insert
  cases hk : find m k with
  | some w => simpa using h
  | none => simp [find_append, h]

theorem insert_of_find_some (m : List (κ × ν)) (k : κ) (v w : ν) (h : find m k = some w) :
    insert m k v = m := by
  simp [insert, h]

theorem insert_of_find_none (m : List (κ × ν)) (k : κ) (v : ν) (h : find m k = none) :
    insert m k v = m ++ [(k, v)] := by
  simp [insert, h]

theorem size_le_size_insert (m : List (κ × ν)) (k : κ) (v : ν) :
    size m ≤ size (insert m k v) := by
  unfold insert size
  cases find m k <;> simp

theorem mem_assign (m : List (κ × ν)) (k : κ) (v : ν) (x : κ × ν) (h : x ∈ assign m k v) :
    x = (k, v) ∨ x ∈ m := by
  induction m with
  | nil => simpa [assign] using h
  | cons y m ih =>
    obtain ⟨k1, v1⟩ := y
    by_cases hk : k1 = k
    · subst hk
      simp only [assign, if_true, List.mem_cons] at h
      rcases h with h | h
      · exact Or.inl h
      · exact Or.inr (List.mem_cons_of_mem _ h)
    · simp only [assign, hk, if_false, List.mem_cons] at h
      rcases h with h | h
      · exact Or.inr (by simp [h])
      · rcases ih h with h1 | h1
        · exact Or.inl h1
        · exact Or.inr (List.mem_cons_of_mem _ h1)

theorem find_assign_isSome (m : List (κ × ν)) (k k0 : κ) (v : ν)
    (h : (find m k0).isSome) : (find (assign m k v) k0).isSome := by
  induction m with
  | nil => simp [find] at h
  | cons y m ih =>
    obtain ⟨k1, v1⟩ := y
    by_cases hk : k1 = k
    · subst hk
      by_cases h0 : k1 = k0
      · simp [assign, find, h0]
      · simp only [find, h0, if_false] at h
        simp [assign, find, h0, h]
    · by_cases h0 : k1 = k0
      · subst h0
        simp [assign, hk, find]
      · simp only [find, h0, if_false] at h
        simp [assign, hk, find, h0, ih h]

end UMap

/-! ## Lemmas on `Graph.insertEdge` -/

namespace Graph

variable {δ : Type}

/-- When the source name is absent, `insertEdge` throws, and the graph it leaves differs from
the one before the call only by the edge object that was allocated and is now unreferenced. -/
theorem insertEdge_of_src_missing (g : Graph δ) (data : EdgeData) (src dst : String)
    (h : UMap.find g.nodes_ src = none) :
    g.insertEdge data src dst =
      .thrown { g with heap := { g.heap with edges := g.heap.edges ++ [Edge.init data] } }
        unableToCreateEdge := by
  simp [insertEdge, h]

/-- When the source name is present, `insertEdge` reaches `addSuccessor` with an edge whose
destination has not been set: the behaviour is undefined. -/
theorem insertEdge_of_src_present (g : Graph δ) (data : EdgeData) (src dst : String) (p : Ptr)
    (h : UMap.find g.nodes_ src = some p) :
    g.insertEdge data src dst = .undefined := by
  cases hn : g.heap.nodes[p]? with
  | none => simp [insertEdge, h, backSetSource, addSuccessorBack, hn]
  | some n =>
    simp [insertEdge, h, backSetSource, addSuccessorBack, hn, Node.addSuccessor,
      Node.destinationId, Edge.init]

/-- No call of `insertEdge` returns normally. -/
theorem insertEdge_ne_ok (g : Graph δ) (data : EdgeData) (src dst : String) (s : Graph δ)
    (i : Nat) : g.insertEdge data src dst ≠ .ok s i := by
  cases h : UMap.find g.nodes_ src with
  | none => rw [insertEdge_of_src_missing g data src dst h]; simp
  | some p => rw [insertEdge_of_src_present g data src dst p h]; simp

end Graph

end AssemblyPlanner

namespace AssemblyPlanner

namespace Graph

variable {δ : Type}

/-- A batch over `pre ++ rest` runs the batch over `pre` and, only if that returns, the batch
over `rest` on the graph it leaves. -/
theorem insertEdges_append (data : EdgeData) (src : String) (pre rest : List String)
    (g : Graph δ) :
    g.insertEdges data src (pre ++ rest) =
      match g.insertEdges data src pre with
      | .ok g1 _ => g1.insertEdges data src rest
      | .thrown s e => .thrown s e
      | .undefined => .undefined := by
  induction pre generalizing g with
  | nil => simp [insertEdges]
  | cons d pre ih =>
    simp only [List.cons_append, insertEdges]
    cases h : g.insertEdge data src d with
    | ok g1 i => simp [ih]
    | thrown s e => simp
    | undefined => simp

/-- `insertNode` always returns; it never lowers the number of nodes and keeps the edges. -/
theorem insertNode_counts (g : Graph δ) (name : String) (data : δ) :
    ∃ g1 i, g.insertNode name data = .ok g1 i ∧ g.numberOfNodes ≤ g1.numberOfNodes ∧
      g1.numberOfEdges = g.numberOfEdges :=
  ⟨_, _, rfl, UMap.size_le_size_insert _ _ _, rfl⟩

/-- Whatever state `insertEdge` leaves, it has the node map and the edge vector of the graph
before the call. -/
theorem insertEdge_state (g : Graph δ) (data : EdgeData) (src dst : String) (s : Graph δ)
    (h : (g.insertEdge data src dst).state? = some s) :
    s.nodes_ = g.nodes_ ∧ s.edges_ = g.edges_ ∧ s.heap.nodes = g.heap.nodes := by
  cases hs : UMap.find g.nodes_ src with
  | none =>
    rw [insertEdge_of_src_missing g data src dst hs] at h
    simp only [Outcome.state?, Option.some.injEq] at h
    subst h
    exact ⟨rfl, rfl, rfl⟩
  | some p =>
    rw [insertEdge_of_src_present g data src dst p hs] at h
    simp [Outcome.state?] at h

end Graph

/-! ## Claims on the graph container -/

/-- C1 (code defect): on the graph whose only node is `a`, `insertEdge(7, "a", "zz")` with the
missing destination `zz` does not throw the error "Unable to create edge": `addSuccessor` is
called on the new edge before its destination is set, and dereferences the unset
destination. -/
theorem insertEdge_missing_destination_at_graphA :
    graphA.insertEdge 7 "a" "zz" = Outcome.undefined ∧
      graphA.insertEdge 7 "a" "zz" ≠ Outcome.thrown graphA Graph.unableToCreateEdge := by
  decide

/-- C2 (code defect): on the graph with the nodes `a` and `b`, `insertEdge(7, "a", "b")` does
not succeed: `addSuccessor` dereferences the destination of the new edge, which is set only
afterwards. -/
theorem insertEdge_existing_endpoints_at_graphAB :
    graphAB.insertEdge 7 "a" "b" = Outcome.undefined := by
  decide

/-- C4, the claim as stated fails: on the graph with the nodes `a` and `b`,
`insertEdges(7, "a", ["zz", "b"])` leaves no graph in which an edge has been added, although
`b` exists and comes after the missing `zz`. -/
theorem insertEdges_skips_destinations_after_failure :
    ¬ ∃ s, (graphAB.insertEdges 7 "a" ["zz", "b"]).state? = some s ∧
        graphAB.numberOfEdges < s.numberOfEdges := by
  decide

/-- C4 as amended: the batch is aborted at the first destination whose `insertEdge` call
fails. When the destinations `pre` before it have been processed, leaving `g1`, and the call
for `dst` does not return normally, the outcome of the whole batch is the outcome of that
call; the destinations `post` after it are not processed. -/
theorem insertEdges_aborts_at_first_failure {δ : Type} (g g1 : Graph δ)
    (data : EdgeData) (src dst : String) (pre post : List String) (i : Nat)
    (hpre : g.insertEdges data src pre = Outcome.ok g1 i)
    (hfail : ∀ s j, g1.insertEdge data src dst ≠ Outcome.ok s j) :
    g.insertEdges data src (pre ++ dst :: post) = g1.insertEdge data src dst := by
  rw [Graph.insertEdges_append, hpre]
  simp only [Graph.insertEdges]
  cases h : g1.insertEdge data src dst with
  | ok s j => exact absurd h (hfail s j)
  | thrown s e => rfl
  | undefined => rfl

/-- Witness of C4 as amended: the batch `["zz", "b"]` from `a` on the graph with `a` and `b`,
where `zz` is missing. -/
theorem insertEdges_aborts_at_first_failure_witness :
    graphAB.insertEdges 7 "a" [] = Outcome.ok graphAB 0 ∧
      (∀ s j, graphAB.insertEdge 7 "a" "zz" ≠ Outcome.ok s j) ∧
      graphAB.insertEdges 7 "a" ([] ++ "zz" :: ["b"]) = graphAB.insertEdge 7 "a" "zz" :=
  have hfail : ∀ s j, graphAB.insertEdge 7 "a" "zz" ≠ Outcome.ok s j := by
    intro s j h
    rw [show graphAB.insertEdge 7 "a" "zz" = Outcome.undefined by decide] at h
    cases h
  ⟨by decide, hfail,
    insertEdges_aborts_at_first_failure graphAB graphAB 7 "a" "zz" [] ["b"] 0 (by decide) hfail⟩

/-- After every `insertNode` call, with a fresh or a present name, a name that resolved to
the node at address `p` still resolves to `p`, and the node there is unchanged. -/
theorem Graph.insertNode_keeps_identifiers {δ : Type} (g : Graph δ) (n : String) (p : Ptr)
    (nd : Node String δ) (hn : UMap.find g.nodes_ n = some p) (hp : g.heap.nodes[p]? = some nd)
    (name : String) (data : δ) :
    ∃ g1 i, g.insertNode name data = Outcome.ok g1 i ∧ UMap.find g1.nodes_ n = some p ∧
      g1.heap.nodes[p]? = some nd := by
  refine ⟨_, _, rfl, UMap.find_insert_of_find _ _ _ _ _ hn, ?_⟩
  have hlt : p < g.heap.nodes.length := by
    rcases Nat.lt_or_ge p g.heap.nodes.length with h | h
    · exact h
    · rw [List.getElem?_eq_none h] at hp
      cases hp
  simp [List.getElem?_append_left hlt, hp]

/-- In every graph an `insertEdge` call leaves (which it does only when it throws for a
missing source), a name that resolved to the node at address `p` still resolves to `p`, and
the node there is unchanged. -/
theorem Graph.insertEdge_state_keeps_identifiers {δ : Type} (g s : Graph δ) (n : String)
    (p : Ptr) (nd : Node String δ) (hn : UMap.find g.nodes_ n = some p)
    (hp : g.heap.nodes[p]? = some nd) (data : EdgeData) (src dst : String)
    (hs : (g.insertEdge data src dst).state? = some s) :
    UMap.find s.nodes_ n = some p ∧ s.heap.nodes[p]? = some nd := by
  obtain ⟨h1, _, h3⟩ := Graph.insertEdge_state g data src dst s hs
  exact ⟨by rw [h1]; exact hn, by rw [h3]; exact hp⟩

/-- C5 (code defect): on the graph whose only node is `a`, the name `a` resolves to the node
at address 0 and keeps doing so after `insertNode("a", 5)` and `insertNode("b", 1)`; but
`insertEdge(7, "a", "a")` dereferences the unset destination of the new edge in
`addSuccessor`, so the call leaves no graph in which `a` resolves to anything. -/
theorem insertEdge_invalidates_identifiers_at_graphA :
    UMap.find graphA.nodes_ "a" = some 0 ∧
    (∃ g1 i, graphA.insertNode "a" 5 = Outcome.ok g1 i ∧ UMap.find g1.nodes_ "a" = some 0 ∧
      g1.heap.nodes[0]? = some (Node.init "a" 0)) ∧
    (∃ g1 i, graphA.insertNode "b" 1 = Outcome.ok g1 i ∧ UMap.find g1.nodes_ "a" = some 0 ∧
      g1.heap.nodes[0]? = some (Node.init "a" 0)) ∧
    graphA.insertEdge 7 "a" "a" = Outcome.undefined ∧
    ¬ ∃ s, (graphA.insertEdge 7 "a" "a").state? = some s ∧
        UMap.find s.nodes_ "a" = some 0 := by
  refine ⟨by decide, ⟨_, _, rfl, by decide, by decide⟩, ⟨_, _, rfl, by decide, by decide⟩,
    by decide, ?_⟩
  rintro ⟨s, hs, _⟩
  rw [show graphA.insertEdge 7 "a" "a" = Outcome.undefined by decide] at hs
  cases hs

end AssemblyPlanner

namespace AssemblyPlanner

/-- A throwing `insertEdge` leaves the number of edges and the number of nodes unchanged. -/
theorem Graph.insertEdge_thrown_counts {δ : Type} (g s : Graph δ) (data : EdgeData)
    (src dst : String) (e : Exn) (h : g.insertEdge data src dst = Outcome.thrown s e) :
    s.numberOfEdges = g.numberOfEdges ∧ s.numberOfNodes = g.numberOfNodes := by
  obtain ⟨h1, h2, _⟩ := Graph.insertEdge_state g data src dst s (by rw [h]; rfl)
  simp [Graph.numberOfEdges, Graph.numberOfNodes, h1, h2]

/-- C6 (code defect): neither `insertEdge(7, "a", "b")` on the graph with the nodes `a` and
`b` nor `insertEdge(7, "a", "zz")` on the graph whose only node is `a` leaves a graph whose
number of edges could be one more than, or the same as, before: both calls run into the
dereference of the unset destination of the new edge. -/
theorem insertEdge_leaves_no_graph :
    (graphAB.insertEdge 7 "a" "b").state? = none ∧
      (graphA.insertEdge 7 "a" "zz").state? = none := by
  decide

/-- C8 (code defect): on the graph whose only node `a` has no outgoing edge,
`numberOfEdgesFromNode("a")` returns 1 although `numberOfSuccessors()` of the node is 0, while
`numberOfEdgesToNode("a")` returns the node's `numberOfPredecessors()`. -/
theorem numberOfEdgesFromNode_returns_one :
    graphA.deref "a" = some (Node.init "a" 0) ∧
      (Node.init "a" 0 : Node String Nat).numberOfSuccessors = 0 ∧
      graphA.numberOfEdgesFromNode "a" = Outcome.ok graphA 1 ∧
      graphA.numberOfEdgesToNode "a" =
        Outcome.ok graphA (Node.init "a" 0 : Node String Nat).numberOfPredecessors := by
  decide

end AssemblyPlanner

namespace AssemblyPlanner

/-! ## Lemmas on the reader -/

namespace InputReader

variable {G C : Type}

/-- A read that returns a true flag went through every stage: each element was found, each
parse function returned `XML_SUCCESS`, the `root` attribute was present and `setRoot`
accepted it; the tuple holds the graph of the generator and the configuration of the
reader. -/
theorem read_success (gen : GraphGenerator G) (cp : CostParser C) (r r' : InputReader G C)
    (root_name : String) (res : ReadResult G C)
    (h : read gen cp r root_name = (r', res)) (hflag : res.2.2 = true) :
    ∃ root graph_e actions_e subs_e agents_e r1 r2 r3 r4 attr g5,
      r.doc.FirstChildElement root_name = some root ∧
      root.FirstChildElement "graph" = some graph_e ∧
      parse_graph gen r graph_e = (r1, .XML_SUCCESS) ∧
      root.FirstChildElement "actions" = some actions_e ∧
      parse_actions cp r1 actions_e = (r2, .XML_SUCCESS) ∧
      root.FirstChildElement "subassemblies" = some subs_e ∧
      parse_subassemblies r2 subs_e = (r3, .XML_SUCCESS) ∧
      root.FirstChildElement "agents" = some agents_e ∧
      parse_agents r3 agents_e = (r4, .XML_SUCCESS) ∧
      root.Attribute "root" = some attr ∧
      gen.setRoot r4.graph_gen attr = (g5, true) ∧
      r' = { r4 with graph_gen := g5 } ∧
      res = (some g5, some r4.config, true) := by
  unfold read at h
  repeat' split at h
  all_goals first
    | (simp only [Prod.mk.injEq] at h
       obtain ⟨h1, h2⟩ := h
       subst h2
       simp [readFailure] at hflag
       done)
    | skip
  simp only [Prod.mk.injEq] at h
  obtain ⟨h1, h2⟩ := h
  subst h1 h2
  exact ⟨_, _, _, _, _, _, _, _, _, _, _, ‹_›, ‹_›, ‹_›, ‹_›, ‹_›, ‹_›, ‹_›, ‹_›, ‹_›, ‹_›, ‹_›,
    rfl, rfl⟩

/-- `parse_graph` does not touch the configuration. -/
theorem parse_graph_config (gen : GraphGenerator G) (r : InputReader G C) (e : XMLElement) :
    (parse_graph gen r e).1.config = r.config := by
  have hn : ∀ (r : InputReader G C) x, (parse_nodes gen r x).1.config = r.config :=
    fun _ _ => rfl
  have he : ∀ (r : InputReader G C) x, (parse_edges gen r x).1.config = r.config :=
    fun _ _ => rfl
  unfold parse_graph
  split
  · rfl
  · rename_i nodes_e _
    split
    · rename_i r1 h1
      have := hn r nodes_e
      rw [h1] at this
      exact this
    · rename_i r1 h1
      have h1c := hn r nodes_e
      rw [h1] at h1c
      split
      · exact h1c
      · rename_i edges_e _
        split
        · rename_i r2 h2
          have := he r1 edges_e
          rw [h2] at this
          exact this.trans h1c
        · rename_i r2 h2
          have := he r1 edges_e
          rw [h2] at this
          exact this.trans h1c

/-- `parse_actions` leaves the subassemblies and agents alone and keeps every action name. -/
theorem parse_actions_loop_frame (cp : CostParser C) (l : List XMLElement)
    (config : Configuration C) :
    (parse_actions_loop cp config l).1.subassemblies = config.subassemblies ∧
    (parse_actions_loop cp config l).1.agents = config.agents ∧
    ∀ k, (UMap.find config.actions k).isSome = true →
      (UMap.find (parse_actions_loop cp config l).1.actions k).isSome = true := by
  induction l generalizing config with
  | nil => exact ⟨rfl, rfl, fun _ h => h⟩
  | cons a l ih =>
    unfold parse_actions_loop
    split
    · exact ⟨rfl, rfl, fun _ h => h⟩
    · split
      · exact ⟨rfl, rfl, fun _ h => h⟩
      · split
        · exact ⟨rfl, rfl, fun _ h => h⟩
        · exact ⟨(ih _).1, (ih _).2.1,
            fun k hk => (ih _).2.2 k (UMap.find_assign_isSome _ _ _ _ hk)⟩

/-- A successful `parse_reachmap` keeps the property that the entries with `reachable` false
name an action. -/
theorem parse_reachmap_loop_resolves (actions : List (String × Action C))
    (l : List XMLElement) (sub : Subassembly)
    (h0 : ∀ reach ∈ sub.reachability, reach.2.1 = false →
      (UMap.find actions reach.2.2).isSome = true)
    (hs : (parse_reachmap_loop actions sub l).2 = .XML_SUCCESS) :
    ∀ reach ∈ (parse_reachmap_loop actions sub l).1.reachability, reach.2.1 = false →
      (UMap.find actions reach.2.2).isSome = true := by
  induction l generalizing sub with
  | nil => exact h0
  | cons a l ih =>
    unfold parse_reachmap_loop at hs ⊢
    split at hs
    · cases hs
    · split at hs
      · cases hs
      · split at hs
        · cases hs
        · simp only at hs ⊢
          split at hs
          · split at hs
            · cases hs
            · rename_i hfalse _ _ hfind
              simp only [hfalse, if_true, hfind]
              refine ih _ ?_ (by simpa [hfalse, hfind] using hs)
              intro reach hmem hflag
              rcases UMap.mem_assign _ _ _ _ hmem with h | h
              · subst h
                simp [hfind]
              · exact h0 reach h hflag
          · rename_i hfalse
            split at hs
            · rename_i htrue
              simp only [hfalse, if_false, htrue, if_true]
              refine ih _ ?_ (by simpa [hfalse, htrue] using hs)
              intro reach hmem hflag
              rcases UMap.mem_assign _ _ _ _ hmem with h | h
              · subst h
                simp at hflag
              · exact h0 reach h hflag
            · cases hs

/-- `parse_subassemblies` leaves the actions and agents alone. -/
theorem parse_subassemblies_loop_frame (l : List XMLElement) (config : Configuration C) :
    (parse_subassemblies_loop config l).1.actions = config.actions ∧
    (parse_subassemblies_loop config l).1.agents = config.agents := by
  induction l generalizing config with
  | nil => exact ⟨rfl, rfl⟩
  | cons a l ih =>
    unfold parse_subassemblies_loop
    split
    · exact ⟨rfl, rfl⟩
    · split
      · exact ⟨rfl, rfl⟩
      · split
        · exact ⟨rfl, rfl⟩
        · exact ih _

/-- A successful `parse_subassemblies` keeps `InteractionsResolve`. -/
theorem parse_subassemblies_loop_resolves (l : List XMLElement) (config : Configuration C)
    (h0 : InteractionsResolve config)
    (hs : (parse_subassemblies_loop config l).2 = .XML_SUCCESS) :
    InteractionsResolve (parse_subassemblies_loop config l).1 := by
  induction l generalizing config with
  | nil => exact h0
  | cons a l ih =>
    unfold parse_subassemblies_loop at hs ⊢
    split at hs
    · cases hs
    · split at hs
      · cases hs
      · split at hs
        · cases hs
        · rename_i _ name _ _ reachmap_e _ _ temp hparse
          refine ih _ ?_ hs
          intro entry hmem reach hreach hflag
          rcases UMap.mem_assign _ _ _ _ hmem with h | h
          · subst h
            have hres := parse_reachmap_loop_resolves config.actions
              (reachmap_e.childElements "reach") { name := name, reachability := [] }
              (by intro x hx; cases hx)
              (by
                have := congrArg Prod.snd hparse
                simpa [parse_reachmap] using this)
            have h1 := congrArg Prod.fst hparse
            simp only [parse_reachmap] at h1
            rw [h1] at hres
            exact hres reach hreach hflag
          · exact h0 entry h reach hreach hflag

/-- `parse_agents` leaves the actions and subassemblies alone. -/
theorem parse_agents_loop_frame (l : List XMLElement) (config : Configuration C) :
    (parse_agents_loop config l).1.actions = config.actions ∧
    (parse_agents_loop config l).1.subassemblies = config.subassemblies := by
  induction l generalizing config with
  | nil => exact ⟨rfl, rfl⟩
  | cons a l ih =>
    unfold parse_agents_loop
    split
    · exact ⟨rfl, rfl⟩
    · split
      · exact ⟨rfl, rfl⟩
      · split
        · exact ⟨rfl, rfl⟩
        · exact ih _

end InputReader

end AssemblyPlanner

namespace AssemblyPlanner

namespace InputReader

variable {G C : Type}

/-- A read that returns a false flag returns the tuple `(nullptr, nullptr, false)`. -/
theorem read_failure (gen : GraphGenerator G) (cp : CostParser C) (r r' : InputReader G C)
    (root_name : String) (res : ReadResult G C)
    (h : read gen cp r root_name = (r', res)) (hflag : res.2.2 = false) :
    res = readFailure := by
  unfold read at h
  repeat' split at h
  all_goals
    simp only [Prod.mk.injEq] at h
    obtain ⟨h1, h2⟩ := h
    subst h2
    first
      | rfl
      | simp at hflag

/-- The edge loop never reports an error once every edge element has its two attributes,
whatever flags the generator returns. -/
theorem parse_edges_loop_success (gen : GraphGenerator G) (l : List XMLElement) (g : G)
    (h : ∀ c ∈ l, (c.Attribute "start").isSome = true ∧ (c.Attribute "end").isSome = true) :
    (parse_edges_loop gen g l).2 = .XML_SUCCESS := by
  induction l generalizing g with
  | nil => rfl
  | cons c l ih =>
    obtain ⟨h1, h2⟩ := h c (List.mem_cons_self _ _)
    obtain ⟨s, hs⟩ := Option.isSome_iff_exists.mp h1
    obtain ⟨e, he⟩ := Option.isSome_iff_exists.mp h2
    simp only [parse_edges_loop, hs, he]
    exact ih _ (fun c hc => h c (List.mem_cons_of_mem _ hc))

/-- One step of the cost loop on an element that has both attributes. -/
theorem parse_costmap_loop_cons (cp : CostParser C) (act : Action C) (cost : XMLElement)
    (rest : List XMLElement) (agent value : String)
    (ha : cost.Attribute "agent" = some agent) (hv : cost.Attribute "value" = some value) :
    parse_costmap_loop cp act (cost :: rest) =
      if cp.accepts value = true then
        parse_costmap_loop cp
          { act with costs := UMap.assign act.costs agent (cp.stored value) } rest
      else (act, .XML_ERROR_PARSING) := by
  simp only [parse_costmap_loop, ha, hv, CostParser.accepts, CostParser.stored]
  by_cases h1 : toLower value = "inf"
  · simp [h1]
  · by_cases h2 : cp.is_float (toLower value) = true
    · simp [h1, h2]
    · simp [h1, h2]

/-- The cost loop succeeds exactly when every element has both attributes and an accepted
value. -/
theorem parse_costmap_loop_success_iff (cp : CostParser C) (l : List XMLElement)
    (act : Action C) :
    (parse_costmap_loop cp act l).2 = .XML_SUCCESS ↔
      ∀ c ∈ l, ∃ a v, c.Attribute "agent" = some a ∧ c.Attribute "value" = some v ∧
        cp.accepts v = true := by
  induction l generalizing act with
  | nil => simp [parse_costmap_loop]
  | cons c l ih =>
    cases ha : c.Attribute "agent" with
    | none => simp [parse_costmap_loop, ha]
    | some a =>
      cases hv : c.Attribute "value" with
      | none => simp [parse_costmap_loop, ha, hv]
      | some v =>
        rw [parse_costmap_loop_cons cp act c l a v ha hv]
        by_cases hacc : cp.accepts v = true
        · simp [hacc, ih, ha, hv]
        · simp [hacc, ha, hv]

end InputReader

end AssemblyPlanner

namespace AssemblyPlanner

/-! ## Claims on the reader -/

section ReaderClaims

variable {G C : Type}

/-- C9, the claim as stated fails: the read of `danglingDoc` succeeds, and the returned
configuration has a reachability entry (reachable, interaction `nothing`) whose interaction
is not the name of an action. -/
theorem read_keeps_unresolved_interaction :
    ∃ g cfg,
      (InputReader.read specGenerator decimalCosts
        (InputReader.init specGenerator danglingDoc) "assembly").2 = (some g, some cfg, true) ∧
      ¬ AllInteractionsResolve cfg :=
  ⟨_, _, rfl, by decide⟩

/-- C9 as amended: after every successful read, every interaction named by a reachability
entry with `reachable` false, of any subassembly of the returned configuration, is the name of
an action of the configuration's action catalogue (the reader starting from a configuration of
which this holds, as the empty one of a new reader). -/
theorem read_interactions_resolve (gen : GraphGenerator G) (cp : CostParser C)
    (r r' : InputReader G C) (root_name : String) (g : G) (cfg : Configuration C)
    (h0 : InteractionsResolve r.config)
    (h : InputReader.read gen cp r root_name = (r', some g, some cfg, true)) :
    InteractionsResolve cfg := by
  obtain ⟨root, graph_e, actions_e, subs_e, agents_e, r1, r2, r3, r4, attr, g5, _, _, hg, _,
    ha, _, hs, _, hag, _, _, _, hres⟩ :=
    InputReader.read_success gen cp r r' root_name _ h rfl
  simp only [Prod.mk.injEq, Option.some.injEq, and_true] at hres
  obtain ⟨_, hcfg⟩ := hres
  subst hcfg
  -- the graph stage
  have h1 : r1.config = r.config := by
    have := InputReader.parse_graph_config gen r graph_e
    rw [hg] at this
    exact this
  -- the action stage
  have h2 : r2.config = (InputReader.parse_actions_loop cp r1.config
      (actions_e.childElements "action")).1 := by
    have := congrArg (fun x => x.1.config) ha
    simpa [InputReader.parse_actions] using this.symm
  obtain ⟨ha1, _, ha3⟩ := InputReader.parse_actions_loop_frame cp
    (actions_e.childElements "action") r1.config
  have hinv2 : InteractionsResolve r2.config := by
    intro entry hmem reach hreach hflag
    rw [h2, ha1, h1] at hmem
    rw [h2]
    exact ha3 _ (by rw [h1]; exact h0 entry hmem reach hreach hflag)
  -- the subassembly stage
  have h3 : r3.config = (InputReader.parse_subassemblies_loop r2.config
      (subs_e.childElements "subassembly")).1 := by
    have := congrArg (fun x => x.1.config) hs
    simpa [InputReader.parse_subassemblies] using this.symm
  have hs2 : (InputReader.parse_subassemblies_loop r2.config
      (subs_e.childElements "subassembly")).2 = .XML_SUCCESS := by
    have := congrArg Prod.snd hs
    simpa [InputReader.parse_subassemblies] using this
  have hinv3 : InteractionsResolve r3.config := by
    rw [h3]
    exact InputReader.parse_subassemblies_loop_resolves _ _ hinv2 hs2
  -- the agent stage
  have h4 : r4.config = (InputReader.parse_agents_loop r3.config
      (agents_e.childElements "agent")).1 := by
    have := congrArg (fun x => x.1.config) hag
    simpa [InputReader.parse_agents] using this.symm
  obtain ⟨hg1, hg2⟩ := InputReader.parse_agents_loop_frame
    (agents_e.childElements "agent") r3.config
  intro entry hmem reach hreach hflag
  rw [h4, hg2] at hmem
  rw [h4, hg1]
  exact hinv3 entry hmem reach hreach hflag

/-- Witness of C9 as amended: the read of `scenarioDoc`, whose entry for `agentX` is not
reachable and names the action `unlock`. -/
theorem read_interactions_resolve_witness :
    InteractionsResolve
      (InputReader.init specGenerator scenarioDoc : InputReader GenGraph Nat).config ∧
    (∃ r' g cfg,
      InputReader.read specGenerator decimalCosts
        (InputReader.init specGenerator scenarioDoc) "assembly" = (r', some g, some cfg, true) ∧
      UMap.find cfg.subassemblies "P" =
        some { name := "P",
               reachability := [("agentX", false, "unlock"), ("agentY", true, "none")] } ∧
      InteractionsResolve cfg) :=
  ⟨by decide, _, _, _, rfl, by decide,
    read_interactions_resolve specGenerator decimalCosts
      (InputReader.init specGenerator scenarioDoc) _ "assembly" _ _ (by decide) rfl⟩

/-- C10 (code defect): in `danglingDoc` the edge from `a` to the undeclared `zz` is rejected by
the generator (its `insertEdge` returns false), and `read` still reports success, with a graph
that lacks the edge. -/
theorem read_succeeds_with_rejected_edge :
    (specGenerator.insertEdge (specGenerator.insertOr specGenerator.init "a") "a" "zz").2
        = false ∧
    (InputReader.read specGenerator decimalCosts
        (InputReader.init specGenerator danglingDoc) "assembly").2 =
      (some { nodes := [("a", NodeType.OR)], edges := [], root_ := some "a" },
       some { actions := [("split", { name := "split", costs := [("x", 5)] })],
              subassemblies :=
                [("a", { name := "a", reachability := [("x", true, "nothing")] })],
              agents := [("x", { name := "x", hostname := "h", port := "1" })] },
       true) := by
  decide

end ReaderClaims

end AssemblyPlanner

namespace AssemblyPlanner

/-! ## Claims on cost parsing, node data and the entry point -/

section CostClaims

variable {G C : Type}

end CostClaims

/-- C13: `reset` sets `solved` and `solution` to false, leaves `cost`, `type`, `name`,
`worker`, `terminal` and `marked` unchanged, and is idempotent. -/
theorem reset_clears_solved_and_solution {R : Type} (d : NodeData R) :
    d.reset.solved = false ∧ d.reset.solution = false ∧ d.reset.cost = d.cost ∧
    d.reset.type = d.type ∧ d.reset.name = d.name ∧ d.reset.worker = d.worker ∧
    d.reset.terminal = d.terminal ∧ d.reset.marked = d.marked ∧
    d.reset.reset = d.reset :=
  ⟨rfl, rfl, rfl, rfl, rfl, rfl, rfl, rfl, rfl⟩

/-- C14, the claim as stated fails: a freshly constructed `NodeData` is terminal and not
solved, so the invariant "terminal implies solved with cost 0" does not hold of it. -/
theorem terminal_not_always_solved :
    ¬ ((∀ t, (NodeData.fresh t : NodeData Int).TerminalSolved) ∧
       (∀ d : NodeData Int, d.TerminalSolved → d.reset.TerminalSolved)) := by
  rintro ⟨h, _⟩
  have := (h NodeType.OR) rfl
  simp [NodeData.fresh] at this

/-- C14 as amended: a freshly constructed `NodeData` is terminal with cost 0 and not solved;
`reset` keeps `terminal` and `cost` and clears `solved`, so that "terminal implies cost 0"
holds of a fresh `NodeData` and is preserved by `reset`. -/
theorem terminal_cost_preserved {R : Type} [Zero R] (t : NodeType) (d : NodeData R)
    (h : d.terminal = true → d.cost = 0) :
    ((NodeData.fresh t : NodeData R).terminal = true ∧
      (NodeData.fresh t : NodeData R).solved = false ∧
      (NodeData.fresh t : NodeData R).cost = 0) ∧
    (d.reset.terminal = d.terminal ∧ d.reset.cost = d.cost ∧ d.reset.solved = false) ∧
    (d.reset.terminal = true → d.reset.cost = 0) :=
  ⟨⟨rfl, rfl, rfl⟩, ⟨rfl, rfl, rfl⟩, h⟩

/-- Witness of C14 as amended: `solvedLeaf`, which `reset` leaves terminal with cost 0 and not
solved. -/
theorem terminal_cost_preserved_witness :
    (solvedLeaf.terminal = true → solvedLeaf.cost = 0) ∧
    solvedLeaf.TerminalSolved ∧ ¬ solvedLeaf.reset.TerminalSolved ∧
    ((NodeData.fresh NodeType.AND : NodeData Int).terminal = true ∧
      (NodeData.fresh NodeType.AND : NodeData Int).solved = false ∧
      (NodeData.fresh NodeType.AND : NodeData Int).cost = 0) ∧
    (solvedLeaf.reset.terminal = solvedLeaf.terminal ∧ solvedLeaf.reset.cost = solvedLeaf.cost ∧
      solvedLeaf.reset.solved = false) ∧
    (solvedLeaf.reset.terminal = true → solvedLeaf.reset.cost = 0) :=
  ⟨fun _ => rfl, fun _ => ⟨rfl, rfl⟩, fun h => by simpa [NodeData.reset] using (h rfl).1,
    terminal_cost_preserved NodeType.AND solvedLeaf (fun _ => rfl)⟩

/-- The loop of `isGoal` on valid pointers. -/
theorem NodeData.isGoal_eq {κ ι δ : Type} (store : List (Node ι δ)) (subs : List (κ × Ptr))
    (hvalid : ∀ x ∈ subs, (store[x.2]?).isSome = true) :
    ∃ b, NodeData.isGoal store subs = some b ∧
      (b = true ↔ ∀ x ∈ subs, ∀ n, store[x.2]? = some n → n.hasSuccessor = false) := by
  induction subs with
  | nil => exact ⟨true, rfl, by simp⟩
  | cons x subs ih =>
    obtain ⟨n, hn⟩ := Option.isSome_iff_exists.mp (hvalid x (List.mem_cons_self _ _))
    obtain ⟨b, hb, hiff⟩ := ih (fun y hy => hvalid y (List.mem_cons_of_mem _ hy))
    cases hs : n.hasSuccessor with
    | true =>
      refine ⟨false, by simp [NodeData.isGoal, hn, hs], ?_⟩
      simp only [Bool.false_eq_true, false_iff, not_forall]
      exact ⟨x, List.mem_cons_self _ _, n, hn, by simp [hs]⟩
    | false =>
      refine ⟨b, by simp [NodeData.isGoal, hn, hs, hb], ?_⟩
      rw [hiff]
      constructor
      · intro h y hy m hm
        rcases List.mem_cons.mp hy with h1 | h1
        · subst h1
          rw [hn] at hm
          cases hm
          exact hs
        · exact h y h1 m hm
      · intro h y hy m hm
        exact h y (List.mem_cons_of_mem _ hy) m hm

/-- C15: when the pointers of `subassemblies` are valid, `isGoal` returns, and it returns true
exactly when no referenced subassembly has a successor; it returns true when there is no
subassembly at all, and false at the first referenced subassembly that has an outgoing edge,
whatever follows it. -/
theorem isGoal_iff_no_successor {κ ι δ : Type} (store : List (Node ι δ))
    (subs : List (κ × Ptr)) (hvalid : ∀ x ∈ subs, (store[x.2]?).isSome = true) :
    (∃ b, NodeData.isGoal store subs = some b ∧
      (b = true ↔ ∀ x ∈ subs, ∀ n, store[x.2]? = some n → n.hasSuccessor = false)) ∧
    NodeData.isGoal store ([] : List (κ × Ptr)) = some true ∧
    (∀ (pre post : List (κ × Ptr)) (x : κ × Ptr) (n : Node ι δ),
      (∀ y ∈ pre, ∃ m, store[y.2]? = some m ∧ m.hasSuccessor = false) →
      store[x.2]? = some n → n.hasSuccessor = true →
      NodeData.isGoal store (pre ++ x :: post) = some false) := by
  refine ⟨NodeData.isGoal_eq store subs hvalid, rfl, ?_⟩
  intro pre post x n hpre hx hs
  induction pre with
  | nil => simp [NodeData.isGoal, hx, hs]
  | cons y pre ih =>
    obtain ⟨m, hm, hms⟩ := hpre y (List.mem_cons_self _ _)
    simp only [List.cons_append, NodeData.isGoal, hm, hms]
    exact ih (fun z hz => hpre z (List.mem_cons_of_mem _ hz))

/-- Witness of C15: in `linkedGraph`, node data referring to `b` and then `a` is not a goal
(`a` has an outgoing edge), node data referring to `b` only is. -/
theorem isGoal_iff_no_successor_witness :
    NodeData.isGoal linkedGraph.heap.nodes [("b", 1), ("a", 0)] = some false ∧
    NodeData.isGoal linkedGraph.heap.nodes [("b", 1)] = some true ∧
    (∃ b, NodeData.isGoal linkedGraph.heap.nodes [("b", 1), ("a", 0)] = some b ∧
      (b = true ↔ ∀ x ∈ [("b", 1), ("a", 0)], ∀ n,
        linkedGraph.heap.nodes[x.2]? = some n → n.hasSuccessor = false)) ∧
    NodeData.isGoal linkedGraph.heap.nodes ([] : List (String × Ptr)) = some true ∧
    (∀ (pre post : List (String × Ptr)) (x : String × Ptr) (n : Node String Nat),
      (∀ y ∈ pre, ∃ m, linkedGraph.heap.nodes[y.2]? = some m ∧ m.hasSuccessor = false) →
      linkedGraph.heap.nodes[x.2]? = some n → n.hasSuccessor = true →
      NodeData.isGoal linkedGraph.heap.nodes (pre ++ x :: post) = some false) :=
  ⟨by decide, by decide,
    isGoal_iff_no_successor linkedGraph.heap.nodes [("b", 1), ("a", 0)] (by decide)⟩

end AssemblyPlanner

namespace AssemblyPlanner

section MainClaims

variable {G C : Type}

/-- C16: `main` returns exit code 0 when the command line cannot be parsed, when the input
file cannot be opened and when `read` returns a false flag, and exit code 1 when the read
succeeds and the planner returns. -/
theorem main_exit_codes (env : MainEnv G C) (argv : List String) :
    (env.parse_args argv = none →
      main env argv = some { exit_code := 0, planned := none }) ∧
    (∀ input, env.parse_args argv = some input → env.LoadFile input = none →
      main env argv = some { exit_code := 0, planned := none }) ∧
    (∀ input doc, env.parse_args argv = some input → env.LoadFile input = some doc →
      (InputReader.read env.gen env.cp (InputReader.init env.gen doc) "assembly").2.2.2 = false →
      main env argv = some { exit_code := 0, planned := none }) ∧
    (∀ input doc, env.parse_args argv = some input → env.LoadFile input = some doc →
      (InputReader.read env.gen env.cp (InputReader.init env.gen doc) "assembly").2.2.2 = true →
      ∃ g cfg,
        (InputReader.read env.gen env.cp (InputReader.init env.gen doc) "assembly").2 =
          (some g, some cfg, true) ∧
        (env.planner g cfg = PlannerRun.returns →
          main env argv = some { exit_code := 1, planned := some (g, cfg) })) := by
  refine ⟨?_, ?_, ?_, ?_⟩
  · intro h
    simp [main, h]
  · intro input h1 h2
    simp [main, h1, h2]
  · intro input doc h1 h2 h3
    generalize hr : InputReader.read env.gen env.cp (InputReader.init env.gen doc) "assembly"
      = out at h3
    obtain ⟨r', res⟩ := out
    have := InputReader.read_failure env.gen env.cp _ r' "assembly" res hr h3
    subst this
    simp [main, h1, h2, hr, InputReader.readFailure]
  · intro input doc h1 h2 h3
    generalize hr : InputReader.read env.gen env.cp (InputReader.init env.gen doc) "assembly"
      = out at h3
    obtain ⟨r', res⟩ := out
    obtain ⟨_, _, _, _, _, _, _, _, r4, _, g5, _, _, _, _, _, _, _, _, _, _, _, _, e13⟩ :=
      InputReader.read_success env.gen env.cp _ r' "assembly" res hr h3
    subst e13
    refine ⟨g5, r4.config, rfl, ?_⟩
    intro hp
    simp [main, h1, h2, hr, hp]

/-- When `main` calls the planner, `read` has returned a true flag, and the planner gets the
graph and the configuration `read` returned. -/
theorem main_planned (env : MainEnv G C) (argv : List String) (res : MainResult G C)
    (g : G) (cfg : Configuration C) (hmain : main env argv = some res)
    (hplanned : res.planned = some (g, cfg)) :
    ∃ input doc, env.parse_args argv = some input ∧ env.LoadFile input = some doc ∧
      (InputReader.read env.gen env.cp (InputReader.init env.gen doc) "assembly").2 =
        (some g, some cfg, true) := by
  unfold main at hmain
  split at hmain
  · cases hmain
    cases hplanned
  · rename_i input h1
    split at hmain
    · cases hmain
      cases hplanned
    · rename_i doc h2
      refine ⟨input, doc, h1, h2, ?_⟩
      split at hmain
      · cases hmain
        cases hplanned
      · rename_i assembly config hr
        split at hmain
        · cases hmain
          cases hplanned
          exact hr
        · cases hmain
          cases hplanned
          exact hr
      · cases hmain

end MainClaims

/-! ### The generated graph is complete -/

/-- Every edge of the generated graph has its two endpoints among the nodes. -/
theorem specGenerator_insert_keeps_edges (g : GenGraph) (n : String) (t : NodeType)
    (h : ∀ e ∈ g.edges, (UMap.find g.nodes e.1).isSome = true ∧
      (UMap.find g.nodes e.2).isSome = true) :
    ∀ e ∈ g.edges, (UMap.find (UMap.insert g.nodes n t) e.1).isSome = true ∧
      (UMap.find (UMap.insert g.nodes n t) e.2).isSome = true := by
  intro e he
  obtain ⟨h1, h2⟩ := h e he
  obtain ⟨a, ha⟩ := Option.isSome_iff_exists.mp h1
  obtain ⟨b, hb⟩ := Option.isSome_iff_exists.mp h2
  rw [UMap.find_insert_of_find _ _ _ _ _ ha, UMap.find_insert_of_find _ _ _ _ _ hb]
  exact ⟨rfl, rfl⟩

/-- The node loop of the reader keeps the endpoints of the edges of `specGenerator`. -/
theorem parse_nodes_loop_keeps_edges (l : List XMLElement) (g : GenGraph)
    (h : ∀ e ∈ g.edges, (UMap.find g.nodes e.1).isSome = true ∧
      (UMap.find g.nodes e.2).isSome = true) :
    ∀ e ∈ (InputReader.parse_nodes_loop specGenerator g l).1.edges,
      (UMap.find (InputReader.parse_nodes_loop specGenerator g l).1.nodes e.1).isSome = true ∧
      (UMap.find (InputReader.parse_nodes_loop specGenerator g l).1.nodes e.2).isSome = true := by
  induction l generalizing g with
  | nil => exact h
  | cons c l ih =>
    unfold InputReader.parse_nodes_loop
    split
    · exact h
    · split
      · exact h
      · split
        · exact ih _ (specGenerator_insert_keeps_edges g _ NodeType.OR h)
        · split
          · exact ih _ (specGenerator_insert_keeps_edges g _ NodeType.AND h)
          · exact h

/-- The edge loop of the reader keeps the endpoints of the edges of `specGenerator`. -/
theorem parse_edges_loop_keeps_edges (l : List XMLElement) (g : GenGraph)
    (h : ∀ e ∈ g.edges, (UMap.find g.nodes e.1).isSome = true ∧
      (UMap.find g.nodes e.2).isSome = true) :
    ∀ e ∈ (InputReader.parse_edges_loop specGenerator g l).1.edges,
      (UMap.find (InputReader.parse_edges_loop specGenerator g l).1.nodes e.1).isSome = true ∧
      (UMap.find (InputReader.parse_edges_loop specGenerator g l).1.nodes e.2).isSome = true := by
  induction l generalizing g with
  | nil => exact h
  | cons c l ih =>
    unfold InputReader.parse_edges_loop
    split
    · exact h
    · split
      · exact h
      · rename_i _ s _ _ d _
        apply ih
        intro e he
        by_cases hsd : ((UMap.find g.nodes s).isSome && (UMap.find g.nodes d).isSome) = true
        · simp only [specGenerator] at he ⊢
          rw [if_pos hsd] at he ⊢
          simp only [List.mem_append, List.mem_singleton] at he
          rcases he with he | he
          · exact h e he
          · subst he
            simpa using hsd
        · simp only [specGenerator] at he ⊢
          rw [if_neg hsd] at he ⊢
          exact h e he

/-- A property of the generator state that the node loop and the edge loop preserve is
preserved by `parse_graph`. -/
theorem InputReader.parse_graph_preserves {G C : Type} (gen : GraphGenerator G)
    (P : G → Prop)
    (hn : ∀ g l, P g → P (InputReader.parse_nodes_loop gen g l).1)
    (he : ∀ g l, P g → P (InputReader.parse_edges_loop gen g l).1)
    (r : InputReader G C) (e : XMLElement) (h : P r.graph_gen) :
    P (InputReader.parse_graph gen r e).1.graph_gen := by
  have hn1 : ∀ (r : InputReader G C) x, P r.graph_gen →
      P (InputReader.parse_nodes gen r x).1.graph_gen := fun r x hr => hn _ _ hr
  have he1 : ∀ (r : InputReader G C) x, P r.graph_gen →
      P (InputReader.parse_edges gen r x).1.graph_gen := fun r x hr => he _ _ hr
  unfold InputReader.parse_graph
  split
  · exact h
  · rename_i nodes_e _
    have h1 := hn1 r nodes_e h
    split
    · rename_i r1 h1e
      rw [h1e] at h1
      exact h1
    · rename_i r1 h1e
      rw [h1e] at h1
      split
      · exact h1
      · rename_i edges_e _
        have h2 := he1 r1 edges_e h1
        split
        · rename_i r2 h2e
          rw [h2e] at h2
          exact h2
        · rename_i r2 h2e
          rw [h2e] at h2
          exact h2

/-- A successful read with `specGenerator`, started on a generator state whose edges have
their endpoints, returns a complete graph. -/
theorem read_complete {C : Type} (cp : CostParser C) (r r' : InputReader GenGraph C)
    (root_name : String) (g : GenGraph) (cfg : Configuration C)
    (h0 : ∀ e ∈ r.graph_gen.edges, (UMap.find r.graph_gen.nodes e.1).isSome = true ∧
      (UMap.find r.graph_gen.nodes e.2).isSome = true)
    (h : InputReader.read specGenerator cp r root_name = (r', some g, some cfg, true)) :
    g.Complete := by
  obtain ⟨root, graph_e, actions_e, subs_e, agents_e, r1, r2, r3, r4, attr, g5, _, _, hg, _,
    ha, _, hs, _, hag, _, hroot, _, hres⟩ :=
    InputReader.read_success specGenerator cp r r' root_name _ h rfl
  simp only [Prod.mk.injEq, Option.some.injEq, and_true] at hres
  obtain ⟨hg5, _⟩ := hres
  subst hg5
  have h1 : ∀ e ∈ r1.graph_gen.edges, (UMap.find r1.graph_gen.nodes e.1).isSome = true ∧
      (UMap.find r1.graph_gen.nodes e.2).isSome = true := by
    have := InputReader.parse_graph_preserves specGenerator
      (fun g => ∀ e ∈ g.edges, (UMap.find g.nodes e.1).isSome = true ∧
        (UMap.find g.nodes e.2).isSome = true)
      (fun g l hg => parse_nodes_loop_keeps_edges l g hg)
      (fun g l hg => parse_edges_loop_keeps_edges l g hg) r graph_e h0
    rw [hg] at this
    exact this
  have e2 : r2.graph_gen = r1.graph_gen := by
    have := congrArg (fun x => x.1.graph_gen) ha
    simpa [InputReader.parse_actions] using this.symm
  have e3 : r3.graph_gen = r2.graph_gen := by
    have := congrArg (fun x => x.1.graph_gen) hs
    simpa [InputReader.parse_subassemblies] using this.symm
  have e4 : r4.graph_gen = r3.graph_gen := by
    have := congrArg (fun x => x.1.graph_gen) hag
    simpa [InputReader.parse_agents] using this.symm
  rw [e4, e3, e2] at hroot
  simp only [specGenerator] at hroot
  by_cases hfind : (UMap.find r1.graph_gen.nodes attr).isSome = true
  · rw [if_pos hfind] at hroot
    simp only [Prod.mk.injEq, and_true] at hroot
    subst hroot
    exact ⟨h1, attr, rfl, hfind⟩
  · rw [if_neg hfind] at hroot
    simp at hroot

/-- C17: the planner is never invoked on an incomplete graph. In every run of `main` (with the
graph generator modelled from the spec) in which the planner is called, `read` has returned a
true flag, the planner receives the graph and the configuration `read` returned, and in that
graph every edge endpoint and the root name resolve to existing nodes. -/
theorem planner_invoked_on_complete_graph {C : Type} (env : MainEnv GenGraph C)
    (argv : List String) (res : MainResult GenGraph C) (g : GenGraph) (cfg : Configuration C)
    (hgen : env.gen = specGenerator) (hmain : main env argv = some res)
    (hplanned : res.planned = some (g, cfg)) :
    (∃ input doc, env.parse_args argv = some input ∧ env.LoadFile input = some doc ∧
      (InputReader.read env.gen env.cp (InputReader.init env.gen doc) "assembly").2 =
        (some g, some cfg, true)) ∧
    g.Complete := by
  obtain ⟨input, doc, h1, h2, h3⟩ := main_planned env argv res g cfg hmain hplanned
  refine ⟨⟨input, doc, h1, h2, h3⟩, ?_⟩
  rw [hgen] at h3
  generalize hr : InputReader.read specGenerator env.cp
    (InputReader.init specGenerator doc) "assembly" = out at h3
  obtain ⟨r', res2⟩ := out
  simp only at h3
  subst h3
  exact read_complete env.cp _ r' "assembly" g cfg
    (by intro e he; simp [InputReader.init, specGenerator] at he) hr

/-- Witness of C17: `main` run on `scenario.xml` calls the planner on the graph with the nodes
`P` and `AB`, the edge from `P` to `AB` and the root `P`. -/
theorem planner_invoked_on_complete_graph_witness :
    ∃ res g cfg,
      sampleEnv.gen = specGenerator ∧
      main sampleEnv ["planner", "scenario.xml"] = some res ∧
      res.planned = some (g, cfg) ∧
      g = { nodes := [("P", NodeType.OR), ("AB", NodeType.AND)], edges := [("P", "AB")],
            root_ := some "P" } ∧
      res.exit_code = 1 ∧
      ((∃ input doc, sampleEnv.parse_args ["planner", "scenario.xml"] = some input ∧
        sampleEnv.LoadFile input = some doc ∧
        (InputReader.read sampleEnv.gen sampleEnv.cp
          (InputReader.init sampleEnv.gen doc) "assembly").2 = (some g, some cfg, true)) ∧
      g.Complete) :=
  ⟨_, _, _, rfl, rfl, rfl, by decide, by decide,
    planner_invoked_on_complete_graph sampleEnv ["planner", "scenario.xml"] _ _ _ rfl rfl rfl⟩

/-- C18 (code defect): `insertNode("a", 0)` on the empty graph returns 0, while the graph it
leaves has one node. -/
theorem insertNode_returns_count_before :
    (Graph.empty : Graph Nat).insertNode "a" 0 = Outcome.ok graphA 0 ∧
      graphA.numberOfNodes = 1 := by
  decide

/-- C19 (code defect): on the graph with the nodes `a` and `b` and no edge,
`insertEdge(7, "a", "b")` returns no index at all, in particular not the index 0 of the first
edge. -/
theorem insertEdge_returns_no_index :
    ¬ ∃ s i, graphAB.insertEdge 7 "a" "b" = Outcome.ok s i := by
  rintro ⟨s, i, h⟩
  rw [show graphAB.insertEdge 7 "a" "b" = Outcome.undefined by decide] at h
  cases h

end AssemblyPlanner

namespace AssemblyPlanner

/-! ## Lemmas on keys, insertion and erasure -/

namespace UMap

variable {κ ν : Type} [DecidableEq κ]

theorem find_eq_none_iff (m : List (κ × ν)) (k : κ) :
    find m k = none ↔ k ∉ m.map Prod.fst := by
  induction m with
  | nil => simp [find]
  | cons x m ih =>
    obtain ⟨k1, v1⟩ := x
    by_cases h : k1 = k
    · simp [find, h]
    · simp only [find, h, if_false, ih, List.map_cons, List.mem_cons, not_or]
      constructor
      · intro h1
        exact ⟨fun h2 => h h2.symm, h1⟩
      · intro h1
        exact h1.2

theorem find_isSome_iff (m : List (κ × ν)) (k : κ) :
    (find m k).isSome = true ↔ k ∈ m.map Prod.fst := by
  rw [← not_iff_not, ← find_eq_none_iff]
  cases find m k <;> simp

theorem mem_of_find (m : List (κ × ν)) (k : κ) (v : ν) (h : find m k = some v) :
    (k, v) ∈ m := by
  induction m with
  | nil => simp [find] at h
  | cons x m ih =>
    obtain ⟨k1, v1⟩ := x
    by_cases hk : k1 = k
    · simp only [find, hk, if_true, Option.some.injEq] at h
      simp [hk, h]
    · simp only [find, hk, if_false] at h
      exact List.mem_cons_of_mem _ (ih h)

theorem keys_insert (m : List (κ × ν)) (k : κ) (v : ν) :
    (insert m k v).map Prod.fst =
      if k ∈ m.map Prod.fst then m.map Prod.fst else m.map Prod.fst ++ [k] := by
  unfold insert
  by_cases h : k ∈ m.map Prod.fst
  · obtain ⟨w, hw⟩ := Option.isSome_iff_exists.mp ((find_isSome_iff m k).mpr h)
    simp [hw, h]
  · have := (find_eq_none_iff m k).mpr h
    simp [this, h]

theorem mem_insert (m : List (κ × ν)) (k : κ) (v : ν) (x : κ × ν) (h : x ∈ insert m k v) :
    x ∈ m ∨ x = (k, v) := by
  unfold insert at h
  cases hf : find m k with
  | some w =>
    rw [hf] at h
    exact Or.inl h
  | none =>
    rw [hf] at h
    simpa using h

theorem erase_nil (k : κ) : erase ([] : List (κ × ν)) k = [] := rfl

theorem erase_cons (m : List (κ × ν)) (k k1 : κ) (v1 : ν) :
    erase ((k1, v1) :: m) k = if k1 = k then erase m k else (k1, v1) :: erase m k := by
  by_cases h : k1 = k
  · simp [erase, List.filter_cons, h]
  · simp [erase, List.filter_cons, h]

theorem erase_append (m m2 : List (κ × ν)) (k : κ) :
    erase (m ++ m2) k = erase m k ++ erase m2 k := by
  simp [erase, List.filter_append]

theorem find_erase_self (m : List (κ × ν)) (k : κ) : find (erase m k) k = none := by
  induction m with
  | nil => rfl
  | cons x m ih =>
    obtain ⟨k1, v1⟩ := x
    rw [erase_cons]
    by_cases h : k1 = k
    · simpa [h] using ih
    · simpa [h, find] using ih

theorem find_erase_of_ne (m : List (κ × ν)) (k k1 : κ) (h : k1 ≠ k) :
    find (erase m k) k1 = find m k1 := by
  induction m with
  | nil => rfl
  | cons x m ih =>
    obtain ⟨k2, v2⟩ := x
    rw [erase_cons]
    by_cases h2 : k2 = k
    · subst h2
      have : ¬ k2 = k1 := fun h3 => h h3.symm
      simpa [find, this] using ih
    · rw [if_neg h2]
      by_cases h3 : k2 = k1
      · simp [find, h3]
      · simpa [find, h3] using ih

theorem erase_of_not_mem (m : List (κ × ν)) (k : κ) (h : k ∉ m.map Prod.fst) :
    erase m k = m := by
  induction m with
  | nil => rfl
  | cons x m ih =>
    obtain ⟨k1, v1⟩ := x
    simp only [List.map_cons, List.mem_cons, not_or] at h
    rw [erase_cons, if_neg (fun h1 => h.1 h1.symm), ih h.2]

theorem size_erase_of_mem (m : List (κ × ν)) (k : κ) (hnd : (m.map Prod.fst).Nodup)
    (h : k ∈ m.map Prod.fst) : size (erase m k) + 1 = size m := by
  induction m with
  | nil => simp at h
  | cons x m ih =>
    obtain ⟨k1, v1⟩ := x
    simp only [List.map_cons, List.nodup_cons] at hnd
    rw [erase_cons]
    by_cases h1 : k1 = k
    · subst h1
      rw [if_pos rfl, erase_of_not_mem m k1 hnd.1]
      rfl
    · have hk : k ∈ m.map Prod.fst := by
        simp only [List.map_cons, List.mem_cons] at h
        rcases h with h | h
        · exact absurd h.symm h1
        · exact h
      have := ih hnd.2 hk
      rw [if_neg h1]
      simp only [size, List.length_cons] at this ⊢
      omega

theorem erase_insert_of_find_none (m : List (κ × ν)) (k : κ) (v : ν) (h : find m k = none) :
    erase (insert m k v) k = m := by
  have hk := (find_eq_none_iff m k).mp h
  rw [insert_of_find_none m k v h, erase_append, erase_of_not_mem m k hk, erase_cons,
    if_pos rfl, erase_nil, List.append_nil]

end UMap

end AssemblyPlanner

namespace AssemblyPlanner

/-! ## Lemmas on the adjacency operations -/

namespace Node

variable {ι δ : Type} [DecidableEq ι]

theorem addSuccessor_eq_some (h : Heap ι δ) (n n1 : Node ι δ) (e : Ptr)
    (hadd : addSuccessor h n e = some n1) :
    ∃ k, destinationId h e = some k ∧
      n1 = { n with children_ := UMap.insert n.children_ k e } := by
  unfold addSuccessor at hadd
  cases hk : destinationId h e with
  | none => simp [hk] at hadd
  | some k =>
    simp only [hk, Option.some.injEq] at hadd
    exact ⟨k, rfl, hadd.symm⟩

theorem addPredecessor_eq_some (h : Heap ι δ) (n n1 : Node ι δ) (e : Ptr)
    (hadd : addPredecessor h n e = some n1) :
    ∃ k, sourceId h e = some k ∧
      n1 = { n with parents_ := UMap.insert n.parents_ k e } := by
  unfold addPredecessor at hadd
  cases hk : sourceId h e with
  | none => simp [hk] at hadd
  | some k =>
    simp only [hk, Option.some.injEq] at hadd
    exact ⟨k, rfl, hadd.symm⟩

/-- The successor keys of a built node: without repetition, the keys there were and the
destination identifiers of the edges added. -/
theorem build_children_keys (h : Heap ι δ) (ops : List AdjOp) (n n1 : Node ι δ)
    (hb : build h n ops = some n1) (hnd : (n.children_.map Prod.fst).Nodup) :
    (n1.children_.map Prod.fst).Nodup ∧
      ∀ k, k ∈ n1.children_.map Prod.fst ↔
        k ∈ n.children_.map Prod.fst ∨ k ∈ addedDestinationIds h ops := by
  induction ops generalizing n with
  | nil =>
    simp only [build, Option.some.injEq] at hb
    subst hb
    exact ⟨hnd, fun k => by simp [addedDestinationIds]⟩
  | cons op ops ih =>
    cases op with
    | addSuccessor e =>
      simp only [build] at hb
      cases hadd : addSuccessor h n e with
      | none => simp [hadd] at hb
      | some n2 =>
        simp only [hadd] at hb
        obtain ⟨k0, hk0, hn2⟩ := addSuccessor_eq_some h n n2 e hadd
        have hkeys : n2.children_.map Prod.fst =
            if k0 ∈ n.children_.map Prod.fst then n.children_.map Prod.fst
            else n.children_.map Prod.fst ++ [k0] := by
          rw [hn2]
          exact UMap.keys_insert _ _ _
        have hnd2 : (n2.children_.map Prod.fst).Nodup := by
          rw [hkeys]
          by_cases hm : k0 ∈ n.children_.map Prod.fst
          · rw [if_pos hm]
            exact hnd
          · rw [if_neg hm]
            exact List.Nodup.append hnd (List.nodup_singleton _) (by simpa using hm)
        obtain ⟨h1, h2⟩ := ih n2 hb hnd2
        refine ⟨h1, fun k => ?_⟩
        rw [h2 k, hkeys]
        simp only [addedDestinationIds, List.filterMap_cons, hk0, List.mem_cons]
        by_cases hm : k0 ∈ n.children_.map Prod.fst
        · rw [if_pos hm]
          constructor
          · rintro (h3 | h3)
            · exact Or.inl h3
            · exact Or.inr (Or.inr h3)
          · rintro (h3 | h3 | h3)
            · exact Or.inl h3
            · exact Or.inl (h3 ▸ hm)
            · exact Or.inr h3
        · rw [if_neg hm]
          simp only [List.mem_append, List.mem_singleton]
          tauto
    | addPredecessor e =>
      simp only [build] at hb
      cases hadd : addPredecessor h n e with
      | none => simp [hadd] at hb
      | some n2 =>
        simp only [hadd] at hb
        obtain ⟨k0, _, hn2⟩ := addPredecessor_eq_some h n n2 e hadd
        have hc : n2.children_ = n.children_ := by rw [hn2]
        obtain ⟨h1, h2⟩ := ih n2 hb (by rw [hc]; exact hnd)
        refine ⟨h1, fun k => ?_⟩
        rw [h2 k, hc]
        simp [addedDestinationIds, List.filterMap_cons]

/-- The predecessor keys of a built node: without repetition, the keys there were and the
source identifiers of the edges added. -/
theorem build_parents_keys (h : Heap ι δ) (ops : List AdjOp) (n n1 : Node ι δ)
    (hb : build h n ops = some n1) (hnd : (n.parents_.map Prod.fst).Nodup) :
    (n1.parents_.map Prod.fst).Nodup ∧
      ∀ k, k ∈ n1.parents_.map Prod.fst ↔
        k ∈ n.parents_.map Prod.fst ∨ k ∈ addedSourceIds h ops := by
  induction ops generalizing n with
  | nil =>
    simp only [build, Option.some.injEq] at hb
    subst hb
    exact ⟨hnd, fun k => by simp [addedSourceIds]⟩
  | cons op ops ih =>
    cases op with
    | addPredecessor e =>
      simp only [build] at hb
      cases hadd : addPredecessor h n e with
      | none => simp [hadd] at hb
      | some n2 =>
        simp only [hadd] at hb
        obtain ⟨k0, hk0, hn2⟩ := addPredecessor_eq_some h n n2 e hadd
        have hkeys : n2.parents_.map Prod.fst =
            if k0 ∈ n.parents_.map Prod.fst then n.parents_.map Prod.fst
            else n.parents_.map Prod.fst ++ [k0] := by
          rw [hn2]
          exact UMap.keys_insert _ _ _
        have hnd2 : (n2.parents_.map Prod.fst).Nodup := by
          rw [hkeys]
          by_cases hm : k0 ∈ n.parents_.map Prod.fst
          · rw [if_pos hm]
            exact hnd
          · rw [if_neg hm]
            exact List.Nodup.append hnd (List.nodup_singleton _) (by simpa using hm)
        obtain ⟨h1, h2⟩ := ih n2 hb hnd2
        refine ⟨h1, fun k => ?_⟩
        rw [h2 k, hkeys]
        simp only [addedSourceIds, List.filterMap_cons, hk0, List.mem_cons]
        by_cases hm : k0 ∈ n.parents_.map Prod.fst
        · rw [if_pos hm]
          constructor
          · rintro (h3 | h3)
            · exact Or.inl h3
            · exact Or.inr (Or.inr h3)
          · rintro (h3 | h3 | h3)
            · exact Or.inl h3
            · exact Or.inl (h3 ▸ hm)
            · exact Or.inr h3
        · rw [if_neg hm]
          simp only [List.mem_append, List.mem_singleton]
          tauto
    | addSuccessor e =>
      simp only [build] at hb
      cases hadd : addSuccessor h n e with
      | none => simp [hadd] at hb
      | some n2 =>
        simp only [hadd] at hb
        obtain ⟨k0, _, hn2⟩ := addSuccessor_eq_some h n n2 e hadd
        have hc : n2.parents_ = n.parents_ := by rw [hn2]
        obtain ⟨h1, h2⟩ := ih n2 hb (by rw [hc]; exact hnd)
        refine ⟨h1, fun k => ?_⟩
        rw [h2 k, hc]
        simp [addedSourceIds, List.filterMap_cons]

/-- A list without repetition that has the elements of `ids` has as many entries as `ids` has
distinct elements. -/
theorem length_eq_card_of_nodup (keys ids : List ι) (hnd : keys.Nodup)
    (hmem : ∀ k, k ∈ keys ↔ k ∈ ids) : keys.length = ids.toFinset.card := by
  rw [← List.toFinset_card_of_nodup hnd]
  congr 1
  ext k
  simp [hmem k]

end Node

end AssemblyPlanner

namespace AssemblyPlanner

namespace Node

variable {ι δ : Type} [DecidableEq ι]

/-- Building keeps the successor keys equal to the destination identifiers of the stored
edges, and the predecessor keys equal to their source identifiers. -/
theorem build_consistent (h : Heap ι δ) (ops : List AdjOp) (n n1 : Node ι δ)
    (hb : build h n ops = some n1)
    (hc : ∀ kv ∈ n.children_, destinationId h kv.2 = some kv.1)
    (hp : ∀ kv ∈ n.parents_, sourceId h kv.2 = some kv.1) :
    (∀ kv ∈ n1.children_, destinationId h kv.2 = some kv.1) ∧
      (∀ kv ∈ n1.parents_, sourceId h kv.2 = some kv.1) := by
  induction ops generalizing n with
  | nil =>
    simp only [build, Option.some.injEq] at hb
    subst hb
    exact ⟨hc, hp⟩
  | cons op ops ih =>
    cases op with
    | addSuccessor e =>
      simp only [build] at hb
      cases hadd : addSuccessor h n e with
      | none => simp [hadd] at hb
      | some n2 =>
        simp only [hadd] at hb
        obtain ⟨k0, hk0, hn2⟩ := addSuccessor_eq_some h n n2 e hadd
        refine ih n2 hb ?_ ?_
        · intro kv hkv
          rw [hn2] at hkv
          rcases UMap.mem_insert _ _ _ _ hkv with h1 | h1
          · exact hc kv h1
          · subst h1
            exact hk0
        · intro kv hkv
          rw [hn2] at hkv
          exact hp kv hkv
    | addPredecessor e =>
      simp only [build] at hb
      cases hadd : addPredecessor h n e with
      | none => simp [hadd] at hb
      | some n2 =>
        simp only [hadd] at hb
        obtain ⟨k0, hk0, hn2⟩ := addPredecessor_eq_some h n n2 e hadd
        refine ih n2 hb ?_ ?_
        · intro kv hkv
          rw [hn2] at hkv
          exact hc kv hkv
        · intro kv hkv
          rw [hn2] at hkv
          rcases UMap.mem_insert _ _ _ _ hkv with h1 | h1
          · exact hp kv h1
          · subst h1
            exact hk0

end Node

/-- When the keys are the destination identifiers of the stored edges, the destinations
listed edge by edge are nodes with these keys as identifiers. -/
theorem Node.destinations_of_consistent {ι δ : Type} (h : Heap ι δ) (m : List (ι × Ptr))
    (hc : ∀ kv ∈ m, Node.destinationId h kv.2 = some kv.1) :
    ∃ ps, Node.endpoints (fun ed => ed.destination_) h m = some ps ∧
      ps.map (Node.idOf h) = m.map fun kv => some kv.1 := by
  induction m with
  | nil => exact ⟨[], rfl, rfl⟩
  | cons kv m ih =>
    obtain ⟨ps, hps, hids⟩ := ih (fun x hx => hc x (List.mem_cons_of_mem _ hx))
    have hkv := hc kv (List.mem_cons_self _ _)
    unfold Node.destinationId at hkv
    cases hed : h.edges[kv.2]? with
    | none => simp [hed] at hkv
    | some ed =>
      simp only [hed] at hkv
      cases hd : ed.destination_ with
      | none => simp [hd] at hkv
      | some q =>
        simp only [hd] at hkv
        refine ⟨some q :: ps, ?_, ?_⟩
        · simp [Node.endpoints, hed, hd, hps]
        · simp [Node.idOf, hkv, hids]

/-- When the keys are the source identifiers of the stored edges, the sources listed edge by
edge are nodes with these keys as identifiers. -/
theorem Node.sources_of_consistent {ι δ : Type} (h : Heap ι δ) (m : List (ι × Ptr))
    (hc : ∀ kv ∈ m, Node.sourceId h kv.2 = some kv.1) :
    ∃ ps, Node.endpoints (fun ed => ed.source_) h m = some ps ∧
      ps.map (Node.idOf h) = m.map fun kv => some kv.1 := by
  induction m with
  | nil => exact ⟨[], rfl, rfl⟩
  | cons kv m ih =>
    obtain ⟨ps, hps, hids⟩ := ih (fun x hx => hc x (List.mem_cons_of_mem _ hx))
    have hkv := hc kv (List.mem_cons_self _ _)
    unfold Node.sourceId at hkv
    cases hed : h.edges[kv.2]? with
    | none => simp [hed] at hkv
    | some ed =>
      simp only [hed] at hkv
      cases hd : ed.source_ with
      | none => simp [hd] at hkv
      | some q =>
        simp only [hd] at hkv
        refine ⟨some q :: ps, ?_, ?_⟩
        · simp [Node.endpoints, hed, hd, hps]
        · simp [Node.idOf, hkv, hids]


/-! ## Claims on the adjacency of a node -/

section NodeClaims

variable {ι δ : Type} [DecidableEq ι]

/-- C24: a node keeps at most one successor edge per destination. `addSuccessor` with an edge
whose destination identifier already keys a successor leaves the node unchanged, the edge
stored first being kept; so `numberOfSuccessors` of a node built from an empty node is the
number of distinct destination identifiers among the edges added. The same holds for
`addPredecessor` and source identifiers. -/
theorem one_edge_per_endpoint (h : Heap ι δ) (self : Node ι δ) (e : Ptr) (k : ι)
    (hk : Node.destinationId h e = some k)
    (hpresent : (UMap.find self.children_ k).isSome = true) :
    Node.addSuccessor h self e = some self ∧
    (∀ e2 k2, Node.sourceId h e2 = some k2 → (UMap.find self.parents_ k2).isSome = true →
      Node.addPredecessor h self e2 = some self) ∧
    (∀ (identifier : ι) (data : δ) (ops : List Node.AdjOp) (n : Node ι δ),
      Node.build h (Node.init identifier data) ops = some n →
      n.numberOfSuccessors = (Node.addedDestinationIds h ops).toFinset.card ∧
      n.numberOfPredecessors = (Node.addedSourceIds h ops).toFinset.card) := by
  refine ⟨?_, ?_, ?_⟩
  · obtain ⟨w, hw⟩ := Option.isSome_iff_exists.mp hpresent
    simp [Node.addSuccessor, hk, UMap.insert_of_find_some _ _ _ _ hw]
  · intro e2 k2 hk2 hp2
    obtain ⟨w, hw⟩ := Option.isSome_iff_exists.mp hp2
    simp [Node.addPredecessor, hk2, UMap.insert_of_find_some _ _ _ _ hw]
  · intro identifier data ops n hb
    obtain ⟨c1, c2⟩ := Node.build_children_keys h ops _ n hb (by simp [Node.init])
    obtain ⟨p1, p2⟩ := Node.build_parents_keys h ops _ n hb (by simp [Node.init])
    constructor
    · have := Node.length_eq_card_of_nodup _ (Node.addedDestinationIds h ops) c1
        (fun k => by simpa [Node.init] using c2 k)
      simpa [Node.numberOfSuccessors, UMap.size] using this
    · have := Node.length_eq_card_of_nodup _ (Node.addedSourceIds h ops) p1
        (fun k => by simpa [Node.init] using p2 k)
      simpa [Node.numberOfPredecessors, UMap.size] using this

/-- Witness of C24: in `linkedGraph` the node `a` already has the successor `b`; adding the
edge to `b` again changes nothing, and a node built with that edge added twice has one
successor. -/
theorem one_edge_per_endpoint_witness :
    Node.destinationId linkedGraph.heap 0 = some "b" ∧
    (UMap.find linkedNodeA.children_ "b").isSome = true ∧
    (Node.build linkedGraph.heap (Node.init "a" 0)
        [.addSuccessor 0, .addSuccessor 0]).map Node.numberOfSuccessors = some 1 ∧
    Node.addSuccessor linkedGraph.heap linkedNodeA 0 = some linkedNodeA ∧
    (∀ e2 k2, Node.sourceId linkedGraph.heap e2 = some k2 →
      (UMap.find linkedNodeA.parents_ k2).isSome = true →
      Node.addPredecessor linkedGraph.heap linkedNodeA e2 = some linkedNodeA) ∧
    (∀ (identifier : String) (data : Nat) (ops : List Node.AdjOp) (n : Node String Nat),
      Node.build linkedGraph.heap (Node.init identifier data) ops = some n →
      n.numberOfSuccessors = (Node.addedDestinationIds linkedGraph.heap ops).toFinset.card ∧
      n.numberOfPredecessors = (Node.addedSourceIds linkedGraph.heap ops).toFinset.card) :=
  ⟨by decide, by decide, by decide,
    one_edge_per_endpoint linkedGraph.heap linkedNodeA 0 "b" (by decide) (by decide)⟩

/-- C28: on a node whose adjacency maps have unique keys, `removeSuccessor(id)` removes
exactly the successor stored under `id`: afterwards `getSuccessor(id)` throws, every other
successor and the predecessors are unchanged, `numberOfSuccessors` is one less if `id` was a
key and the same otherwise; and on a node without a successor to `id`, `addSuccessor` of an
edge to `id` followed by `removeSuccessor(id)` gives back the node. Likewise for
`removePredecessor`. -/
theorem remove_removes_exactly (self : Node ι δ) (id : ι)
    (hc : (self.children_.map Prod.fst).Nodup) (hp : (self.parents_.map Prod.fst).Nodup) :
    ((self.removeSuccessor id).getSuccessor id = .error Exn.out_of_range ∧
      (∀ k, k ≠ id → (self.removeSuccessor id).getSuccessor k = self.getSuccessor k) ∧
      (self.removeSuccessor id).parents_ = self.parents_ ∧
      ((UMap.find self.children_ id).isSome = true →
        (self.removeSuccessor id).numberOfSuccessors + 1 = self.numberOfSuccessors) ∧
      (UMap.find self.children_ id = none →
        (self.removeSuccessor id).numberOfSuccessors = self.numberOfSuccessors) ∧
      (∀ (h : Heap ι δ) (e : Ptr), Node.destinationId h e = some id →
        UMap.find self.children_ id = none →
        ∃ n1, Node.addSuccessor h self e = some n1 ∧ n1.getSuccessor id = .ok e ∧
          n1.removeSuccessor id = self)) ∧
    ((self.removePredecessor id).getPredecessor id = .error Exn.out_of_range ∧
      (∀ k, k ≠ id → (self.removePredecessor id).getPredecessor k = self.getPredecessor k) ∧
      (self.removePredecessor id).children_ = self.children_ ∧
      ((UMap.find self.parents_ id).isSome = true →
        (self.removePredecessor id).numberOfPredecessors + 1 = self.numberOfPredecessors) ∧
      (UMap.find self.parents_ id = none →
        (self.removePredecessor id).numberOfPredecessors = self.numberOfPredecessors) ∧
      (∀ (h : Heap ι δ) (e : Ptr), Node.sourceId h e = some id →
        UMap.find self.parents_ id = none →
        ∃ n1, Node.addPredecessor h self e = some n1 ∧ n1.getPredecessor id = .ok e ∧
          n1.removePredecessor id = self)) := by
  refine ⟨⟨?_, ?_, rfl, ?_, ?_, ?_⟩, ⟨?_, ?_, rfl, ?_, ?_, ?_⟩⟩
  · simp [Node.removeSuccessor, Node.getSuccessor, UMap.atKey, UMap.find_erase_self]
  · intro k hk
    simp [Node.removeSuccessor, Node.getSuccessor, UMap.atKey, UMap.find_erase_of_ne _ _ _ hk]
  · intro hs
    exact UMap.size_erase_of_mem _ _ hc ((UMap.find_isSome_iff _ _).mp hs)
  · intro hs
    simp [Node.removeSuccessor, Node.numberOfSuccessors,
      UMap.erase_of_not_mem _ _ ((UMap.find_eq_none_iff _ _).mp hs)]
  · intro h e hk hs
    refine ⟨{ self with children_ := UMap.insert self.children_ id e }, ?_, ?_, ?_⟩
    · simp [Node.addSuccessor, hk]
    · simp [Node.getSuccessor, UMap.atKey, UMap.insert_of_find_none _ _ _ hs, UMap.find_append,
        hs, UMap.find]
    · simp [Node.removeSuccessor, UMap.erase_insert_of_find_none _ _ _ hs]
  · simp [Node.removePredecessor, Node.getPredecessor, UMap.atKey, UMap.find_erase_self]
  · intro k hk
    simp [Node.removePredecessor, Node.getPredecessor, UMap.atKey,
      UMap.find_erase_of_ne _ _ _ hk]
  · intro hs
    exact UMap.size_erase_of_mem _ _ hp ((UMap.find_isSome_iff _ _).mp hs)
  · intro hs
    simp [Node.removePredecessor, Node.numberOfPredecessors,
      UMap.erase_of_not_mem _ _ ((UMap.find_eq_none_iff _ _).mp hs)]
  · intro h e hk hs
    refine ⟨{ self with parents_ := UMap.insert self.parents_ id e }, ?_, ?_, ?_⟩
    · simp [Node.addPredecessor, hk]
    · simp [Node.getPredecessor, UMap.atKey, UMap.insert_of_find_none _ _ _ hs, UMap.find_append,
        hs, UMap.find]
    · simp [Node.removePredecessor, UMap.erase_insert_of_find_none _ _ _ hs]

/-- C29: in every node built from an empty node by `addSuccessor` and `addPredecessor` calls,
each edge stored in the successor set under a key has that key as destination identifier and
each edge stored in the predecessor set under a key has that key as source identifier, so
that `getSuccessorNodes` and `getPredecessorNodes` list, entry by entry, nodes whose
identifiers are the stored keys. -/
theorem adjacency_keys_consistent (h : Heap ι δ) (identifier : ι) (data : δ)
    (ops : List Node.AdjOp) (n : Node ι δ)
    (hb : Node.build h (Node.init identifier data) ops = some n) :
    (∀ kv ∈ n.children_, Node.destinationId h kv.2 = some kv.1) ∧
    (∀ kv ∈ n.parents_, Node.sourceId h kv.2 = some kv.1) ∧
    (∃ ps, n.getSuccessorNodes h = some ps ∧
      ps.map (Node.idOf h) = n.children_.map fun kv => some kv.1) ∧
    (∃ ps, n.getPredecessorNodes h = some ps ∧
      ps.map (Node.idOf h) = n.parents_.map fun kv => some kv.1) := by
  obtain ⟨hc, hp⟩ := Node.build_consistent h ops _ n hb
    (by intro kv hkv; simp [Node.init] at hkv) (by intro kv hkv; simp [Node.init] at hkv)
  exact ⟨hc, hp, Node.destinations_of_consistent h _ hc, Node.sources_of_consistent h _ hp⟩

/-- Witness of C29: the node built on the free store of `linkedGraph` by adding its edge as a
successor and as a predecessor. -/
theorem adjacency_keys_consistent_witness :
    Node.build linkedGraph.heap (Node.init "a" 0) [.addSuccessor 0, .addPredecessor 0] =
      some builtNodeA ∧
    builtNodeA.getSuccessorNodes linkedGraph.heap = some [some 1] ∧
    builtNodeA.getPredecessorNodes linkedGraph.heap = some [some 0] ∧
    (∀ kv ∈ builtNodeA.children_, Node.destinationId linkedGraph.heap kv.2 = some kv.1) ∧
    (∀ kv ∈ builtNodeA.parents_, Node.sourceId linkedGraph.heap kv.2 = some kv.1) ∧
    (∃ ps, builtNodeA.getSuccessorNodes linkedGraph.heap = some ps ∧
      ps.map (Node.idOf linkedGraph.heap) = builtNodeA.children_.map fun kv => some kv.1) ∧
    (∃ ps, builtNodeA.getPredecessorNodes linkedGraph.heap = some ps ∧
      ps.map (Node.idOf linkedGraph.heap) = builtNodeA.parents_.map fun kv => some kv.1) :=
  ⟨by decide, by decide, by decide,
    adjacency_keys_consistent linkedGraph.heap "a" 0 [.addSuccessor 0, .addPredecessor 0]
      builtNodeA (by decide)⟩

/-- Witness of C28: the node `a` of `linkedGraph`, with the successor key `b`. -/
theorem remove_removes_exactly_witness :
    (linkedNodeA.children_.map Prod.fst).Nodup ∧ (linkedNodeA.parents_.map Prod.fst).Nodup ∧
    (linkedNodeA.removeSuccessor "b").numberOfSuccessors = 0 ∧
    ((linkedNodeA.removeSuccessor "b").getSuccessor "b" = .error Exn.out_of_range ∧
      (∀ k, k ≠ "b" →
        (linkedNodeA.removeSuccessor "b").getSuccessor k = linkedNodeA.getSuccessor k) ∧
      (linkedNodeA.removeSuccessor "b").parents_ = linkedNodeA.parents_ ∧
      ((UMap.find linkedNodeA.children_ "b").isSome = true →
        (linkedNodeA.removeSuccessor "b").numberOfSuccessors + 1 =
          linkedNodeA.numberOfSuccessors) ∧
      (UMap.find linkedNodeA.children_ "b" = none →
        (linkedNodeA.removeSuccessor "b").numberOfSuccessors = linkedNodeA.numberOfSuccessors) ∧
      (∀ (h : Heap String Nat) (e : Ptr), Node.destinationId h e = some "b" →
        UMap.find linkedNodeA.children_ "b" = none →
        ∃ n1, Node.addSuccessor h linkedNodeA e = some n1 ∧ n1.getSuccessor "b" = .ok e ∧
          n1.removeSuccessor "b" = linkedNodeA)) ∧
    ((linkedNodeA.removePredecessor "b").getPredecessor "b" = .error Exn.out_of_range ∧
      (∀ k, k ≠ "b" →
        (linkedNodeA.removePredecessor "b").getPredecessor k = linkedNodeA.getPredecessor k) ∧
      (linkedNodeA.removePredecessor "b").children_ = linkedNodeA.children_ ∧
      ((UMap.find linkedNodeA.parents_ "b").isSome = true →
        (linkedNodeA.removePredecessor "b").numberOfPredecessors + 1 =
          linkedNodeA.numberOfPredecessors) ∧
      (UMap.find linkedNodeA.parents_ "b" = none →
        (linkedNodeA.removePredecessor "b").numberOfPredecessors =
          linkedNodeA.numberOfPredecessors) ∧
      (∀ (h : Heap String Nat) (e : Ptr), Node.sourceId h e = some "b" →
        UMap.find linkedNodeA.parents_ "b" = none →
        ∃ n1, Node.addPredecessor h linkedNodeA e = some n1 ∧ n1.getPredecessor "b" = .ok e ∧
          n1.removePredecessor "b" = linkedNodeA)) :=
  ⟨by decide, by decide, by decide,
    remove_removes_exactly linkedNodeA "b" (by decide) (by decide)⟩

end NodeClaims

end AssemblyPlanner

namespace AssemblyPlanner

/-- C23 (code defect): on the graph whose only node is `a`, `insertEdge(7, "a", "zz")` with
the missing destination `zz` does not leave the graph as it was: `addSuccessor` is run on the
source before the destination is looked up, with an edge whose destination is unset, and the
call leaves no defined graph. With a missing source the call does throw and leaves the node
map, the edge vector and the nodes as they were. -/
theorem insertEdge_not_atomic_at_graphA :
    (¬ ∃ s, (graphA.insertEdge 7 "a" "zz").state? = some s ∧ s.edges_ = graphA.edges_ ∧
        s.heap.nodes = graphA.heap.nodes) ∧
    (∃ s, graphA.insertEdge 7 "zz" "a" = Outcome.thrown s Graph.unableToCreateEdge ∧
        s.nodes_ = graphA.nodes_ ∧ s.edges_ = graphA.edges_ ∧
        s.heap.nodes = graphA.heap.nodes) := by
  constructor
  · rintro ⟨s, hs, _⟩
    rw [show graphA.insertEdge 7 "a" "zz" = Outcome.undefined by decide] at hs
    cases hs
  · exact ⟨_, Graph.insertEdge_of_src_missing graphA 7 "zz" "a" (by decide), rfl, rfl, rfl⟩

/-- C25 (code defect): the action catalogue read from `<action name="Unlock">` has the action
name `Unlock`, and the reach entry with `reachable` false and the interaction `Unlock` is
rejected by `parse_reachmap`: the interaction is lower-cased before the lookup, the action
names are not. The name stored for the agent is `unlock`. -/
theorem parse_reachmap_rejects_capitalised_action :
    (InputReader.parse_actions_loop decimalCosts
        { actions := [], subassemblies := [], agents := [] } [unlockAction]).1.actions =
      [("Unlock", { name := "Unlock", costs := [] })] ∧
    InputReader.parse_reachmap [("Unlock", ({ name := "Unlock", costs := [] } : Action Nat))]
        unlockReachmap { name := "P", reachability := [] } =
      ({ name := "P", reachability := [("x", false, "unlock")] }, .XML_ERROR_PARSING) := by
  decide

section ReachClaims

variable {C : Type}

/-- One step of the reach loop on an element that has its three attributes. -/
theorem InputReader.parse_reachmap_loop_cons (actions : List (String × Action C))
    (sub : Subassembly) (reach : XMLElement) (rest : List XMLElement) (agent r i : String)
    (ha : reach.Attribute "agent" = some agent) (hr : reach.Attribute "reachable" = some r)
    (hi : reach.Attribute "interaction" = some i) :
    InputReader.parse_reachmap_loop actions sub (reach :: rest) =
      if toLower r = "false" then
        match UMap.find actions (toLower i) with
        | none =>
          ({ sub with reachability := UMap.assign sub.reachability agent (false, toLower i) },
            .XML_ERROR_PARSING)
        | some _ =>
          InputReader.parse_reachmap_loop actions
            { sub with reachability := UMap.assign sub.reachability agent (false, toLower i) }
            rest
      else if toLower r = "true" then
        InputReader.parse_reachmap_loop actions
          { sub with reachability := UMap.assign sub.reachability agent (true, toLower i) } rest
      else (sub, .XML_ERROR_PARSING) := by
  simp only [InputReader.parse_reachmap_loop, ha, hr, hi]

/-- A successful reach loop has seen only entries with the three attributes and a `reachable`
value that is, lower-cased, `true` or `false`. -/
theorem InputReader.parse_reachmap_loop_success (actions : List (String × Action C))
    (l : List XMLElement) (sub : Subassembly)
    (hs : (InputReader.parse_reachmap_loop actions sub l).2 = .XML_SUCCESS) :
    ∀ reach ∈ l, ∃ agent r i, reach.Attribute "agent" = some agent ∧
      reach.Attribute "reachable" = some r ∧ reach.Attribute "interaction" = some i ∧
      (toLower r = "true" ∨ toLower r = "false") := by
  induction l generalizing sub with
  | nil => intro reach h; cases h
  | cons x l ih =>
    cases ha : x.Attribute "agent" with
    | none => simp [InputReader.parse_reachmap_loop, ha] at hs
    | some agent =>
      cases hr : x.Attribute "reachable" with
      | none => simp [InputReader.parse_reachmap_loop, ha, hr] at hs
      | some r =>
        cases hi : x.Attribute "interaction" with
        | none => simp [InputReader.parse_reachmap_loop, ha, hr, hi] at hs
        | some i =>
          rw [InputReader.parse_reachmap_loop_cons actions sub x l agent r i ha hr hi] at hs
          by_cases h1 : toLower r = "false"
          · rw [if_pos h1] at hs
            cases hf : UMap.find actions (toLower i) with
            | none => simp [hf] at hs
            | some a =>
              simp only [hf] at hs
              intro reach hmem
              rcases List.mem_cons.mp hmem with h | h
              · subst h
                exact ⟨agent, r, i, ha, hr, hi, Or.inr h1⟩
              · exact ih _ hs reach h
          · rw [if_neg h1] at hs
            by_cases h2 : toLower r = "true"
            · rw [if_pos h2] at hs
              intro reach hmem
              rcases List.mem_cons.mp hmem with h | h
              · subst h
                exact ⟨agent, r, i, ha, hr, hi, Or.inl h2⟩
              · exact ih _ hs reach h
            · rw [if_neg h2] at hs
              cases hs

end ReachClaims

end AssemblyPlanner

namespace AssemblyPlanner

/-! ## A successful read has seen a complete document -/

namespace InputReader

variable {G C : Type}

theorem parse_nodes_loop_attributes (gen : GraphGenerator G) (l : List XMLElement) (g : G)
    (hs : (parse_nodes_loop gen g l).2 = .XML_SUCCESS) :
    ∀ n ∈ l, hasAttributes n ["name", "type"] := by
  induction l generalizing g with
  | nil => intro n h; cases h
  | cons x l ih =>
    cases hn : x.Attribute "name" with
    | none => simp [parse_nodes_loop, hn] at hs
    | some name =>
      cases ht : x.Attribute "type" with
      | none => simp [parse_nodes_loop, hn, ht] at hs
      | some type =>
        simp only [parse_nodes_loop, hn, ht] at hs
        have hx : hasAttributes x ["name", "type"] := by
          intro a ha
          simp only [List.mem_cons, List.mem_singleton, List.not_mem_nil, or_false] at ha
          rcases ha with h | h <;> subst h <;> simp [hn, ht]
        intro n hmem
        rcases List.mem_cons.mp hmem with h | h
        · subst h
          exact hx
        · split at hs
          · exact ih _ hs n h
          · split at hs
            · exact ih _ hs n h
            · cases hs

theorem parse_edges_loop_attributes (gen : GraphGenerator G) (l : List XMLElement) (g : G)
    (hs : (parse_edges_loop gen g l).2 = .XML_SUCCESS) :
    ∀ e ∈ l, hasAttributes e ["start", "end"] := by
  induction l generalizing g with
  | nil => intro n h; cases h
  | cons x l ih =>
    cases hn : x.Attribute "start" with
    | none => simp [parse_edges_loop, hn] at hs
    | some s =>
      cases ht : x.Attribute "end" with
      | none => simp [parse_edges_loop, hn, ht] at hs
      | some d =>
        simp only [parse_edges_loop, hn, ht] at hs
        intro n hmem
        rcases List.mem_cons.mp hmem with h | h
        · subst h
          intro a ha
          simp only [List.mem_cons, List.mem_singleton, List.not_mem_nil, or_false] at ha
          rcases ha with h | h <;> subst h <;> simp [hn, ht]
        · exact ih _ hs n h

theorem parse_graph_attributes (gen : GraphGenerator G) (r r1 : InputReader G C)
    (graph_e : XMLElement) (hs : parse_graph gen r graph_e = (r1, .XML_SUCCESS)) :
    ∃ nodes_e edges_e, graph_e.FirstChildElement "nodes" = some nodes_e ∧
      graph_e.FirstChildElement "edges" = some edges_e ∧
      (∀ n ∈ nodes_e.childElements "node", hasAttributes n ["name", "type"]) ∧
      (∀ e ∈ edges_e.childElements "edge", hasAttributes e ["start", "end"]) := by
  unfold parse_graph at hs
  split at hs
  · cases hs
  · rename_i nodes_e hnodes
    split at hs
    · cases hs
    · rename_i r2 hpn
      split at hs
      · cases hs
      · rename_i edges_e hedges
        split at hs
        · cases hs
        · rename_i r3 hpe
          refine ⟨nodes_e, edges_e, hnodes, hedges, ?_, ?_⟩
          · have := congrArg Prod.snd hpn
            exact parse_nodes_loop_attributes gen _ _ (by simpa [parse_nodes] using this)
          · have := congrArg Prod.snd hpe
            exact parse_edges_loop_attributes gen _ _ (by simpa [parse_edges] using this)

theorem parse_actions_loop_attributes (cp : CostParser C) (l : List XMLElement)
    (config : Configuration C) (hs : (parse_actions_loop cp config l).2 = .XML_SUCCESS) :
    ∀ a ∈ l, hasAttributes a ["name"] ∧
      ∃ cm, a.FirstChildElement "costmap" = some cm ∧
        ∀ c ∈ cm.childElements "cost", hasAttributes c ["agent", "value"] := by
  induction l generalizing config with
  | nil => intro n h; cases h
  | cons x l ih =>
    cases hn : x.Attribute "name" with
    | none => simp [parse_actions_loop, hn] at hs
    | some name =>
      cases hcm : x.FirstChildElement "costmap" with
      | none => simp [parse_actions_loop, hn, hcm] at hs
      | some cm =>
        simp only [parse_actions_loop, hn, hcm] at hs
        split at hs
        · cases hs
        · rename_i action_temp hparse
          intro a hmem
          rcases List.mem_cons.mp hmem with h | h
          · subst h
            refine ⟨by intro b hb; simp at hb; subst hb; simp [hn], cm, hcm, ?_⟩
            have h2 := congrArg Prod.snd hparse
            simp only [parse_costmap] at h2
            intro c hc
            obtain ⟨ag, v, h3, h4, _⟩ := (parse_costmap_loop_success_iff cp _ _).mp h2 c hc
            intro b hb
            simp only [List.mem_cons, List.mem_singleton, List.not_mem_nil, or_false] at hb
            rcases hb with h | h <;> subst h <;> simp [h3, h4]
          · exact ih _ hs a h

theorem parse_subassemblies_loop_attributes (l : List XMLElement)
    (config : Configuration C) (hs : (parse_subassemblies_loop config l).2 = .XML_SUCCESS) :
    ∀ s ∈ l, hasAttributes s ["name"] ∧
      ∃ rm, s.FirstChildElement "reachmap" = some rm ∧
        ∀ r ∈ rm.childElements "reach",
          hasAttributes r ["agent", "reachable", "interaction"] := by
  induction l generalizing config with
  | nil => intro n h; cases h
  | cons x l ih =>
    cases hn : x.Attribute "name" with
    | none => simp [parse_subassemblies_loop, hn] at hs
    | some name =>
      cases hrm : x.FirstChildElement "reachmap" with
      | none => simp [parse_subassemblies_loop, hn, hrm] at hs
      | some rm =>
        simp only [parse_subassemblies_loop, hn, hrm] at hs
        split at hs
        · cases hs
        · rename_i sub_temp hparse
          intro a hmem
          rcases List.mem_cons.mp hmem with h | h
          · subst h
            refine ⟨by intro b hb; simp at hb; subst hb; simp [hn], rm, hrm, ?_⟩
            have h2 := congrArg Prod.snd hparse
            simp only [parse_reachmap] at h2
            intro c hc
            obtain ⟨ag, r, i, h3, h4, h5, _⟩ :=
              parse_reachmap_loop_success config.actions _ _ h2 c hc
            intro b hb
            simp only [List.mem_cons, List.mem_singleton, List.not_mem_nil, or_false] at hb
            rcases hb with h | h | h <;> subst h <;> simp [h3, h4, h5]
          · exact ih _ hs a h

theorem parse_agents_loop_attributes (l : List XMLElement)
    (config : Configuration C) (hs : (parse_agents_loop config l).2 = .XML_SUCCESS) :
    ∀ a ∈ l, hasAttributes a ["name", "host", "port"] := by
  induction l generalizing config with
  | nil => intro n h; cases h
  | cons x l ih =>
    cases hn : x.Attribute "name" with
    | none => simp [parse_agents_loop, hn] at hs
    | some name =>
      cases hh : x.Attribute "host" with
      | none => simp [parse_agents_loop, hn, hh] at hs
      | some host =>
        cases hp : x.Attribute "port" with
        | none => simp [parse_agents_loop, hn, hh, hp] at hs
        | some port =>
          simp only [parse_agents_loop, hn, hh, hp] at hs
          intro a hmem
          rcases List.mem_cons.mp hmem with h | h
          · subst h
            intro b hb
            simp only [List.mem_cons, List.mem_singleton, List.not_mem_nil, or_false] at hb
            rcases hb with h | h | h <;> subst h <;> simp [hn, hh, hp]
          · exact ih _ hs a h

end InputReader

/-- C26: `read` succeeds only on a structurally complete document. When the returned flag is
true, the root element, its `graph` element with the `nodes` and `edges` elements, the
`actions`, `subassemblies` and `agents` elements and the `root` attribute are present, every
action has a `costmap` and every subassembly a `reachmap`, every node, edge, action, cost,
subassembly, reach and agent element has its mandatory attributes, and `setRoot` accepted the
root name. -/
theorem read_succeeds_only_on_complete_document {G C : Type} (gen : GraphGenerator G)
    (cp : CostParser C) (r : InputReader G C) (root_name : String)
    (hflag : (InputReader.read gen cp r root_name).2.2.2 = true) :
    StructurallyComplete r.doc root_name ∧
    ∃ root attr g, r.doc.FirstChildElement root_name = some root ∧
      root.Attribute "root" = some attr ∧
      gen.setRoot g attr = ((InputReader.read gen cp r root_name).1.graph_gen, true) := by
  generalize hr : InputReader.read gen cp r root_name = out at hflag
  obtain ⟨r', res⟩ := out
  obtain ⟨root, graph_e, actions_e, subs_e, agents_e, r1, r2, r3, r4, attr, g5, e1, e2, e3,
    e4, e5, e6, e7, e8, e9, e10, e11, e12, _⟩ :=
    InputReader.read_success gen cp r r' root_name res hr hflag
  subst e12
  obtain ⟨nodes_e, edges_e, hn, he, hna, hea⟩ :=
    InputReader.parse_graph_attributes gen r r1 graph_e e3
  refine ⟨⟨root, graph_e, nodes_e, edges_e, actions_e, subs_e, agents_e, e1, e2, hn, he, e4,
    e6, e8, ?_, hna, hea, ?_, ?_, ?_⟩, root, attr, r4.graph_gen, e1, e10, e11⟩
  · intro a ha
    simp only [List.mem_singleton] at ha
    subst ha
    simp [e10]
  · have := congrArg Prod.snd e5
    exact InputReader.parse_actions_loop_attributes cp _ _
      (by simpa [InputReader.parse_actions] using this)
  · have := congrArg Prod.snd e7
    exact InputReader.parse_subassemblies_loop_attributes _ _
      (by simpa [InputReader.parse_subassemblies] using this)
  · have := congrArg Prod.snd e9
    exact InputReader.parse_agents_loop_attributes _ _
      (by simpa [InputReader.parse_agents] using this)

/-- Witness of C26: the read of `scenarioDoc` succeeds, and the read of the same document under
a root name it does not have fails. -/
theorem read_succeeds_only_on_complete_document_witness :
    (InputReader.read specGenerator decimalCosts
      (InputReader.init specGenerator scenarioDoc) "assembly").2.2.2 = true ∧
    (InputReader.read specGenerator decimalCosts
      (InputReader.init specGenerator scenarioDoc) "plan").2 = InputReader.readFailure ∧
    StructurallyComplete
      (InputReader.init specGenerator scenarioDoc : InputReader GenGraph Nat).doc "assembly" ∧
    ∃ root attr g,
      (InputReader.init specGenerator scenarioDoc : InputReader GenGraph Nat).doc.FirstChildElement
        "assembly" = some root ∧
      root.Attribute "root" = some attr ∧
      specGenerator.setRoot g attr =
        ((InputReader.read specGenerator decimalCosts
          (InputReader.init specGenerator scenarioDoc) "assembly").1.graph_gen, true) :=
  ⟨by decide, by decide,
    read_succeeds_only_on_complete_document specGenerator decimalCosts
      (InputReader.init specGenerator scenarioDoc) "assembly" (by decide)⟩

end AssemblyPlanner

namespace AssemblyPlanner

/-! ## Claims on the planner -/

theorem cheapest_spec (l : List Nat) (m : Nat) (h : cheapest l = some m) :
    m ∈ l ∧ ∀ x ∈ l, m ≤ x := by
  induction l generalizing m with
  | nil => simp [cheapest] at h
  | cons c cs ih =>
    cases hc : cheapest cs with
    | none =>
      simp only [cheapest, hc, Option.some.injEq] at h
      subst h
      cases cs with
      | nil => simp
      | cons d ds =>
        exfalso
        simp only [cheapest] at hc
        cases hd : cheapest ds <;> simp [hd] at hc
    | some m1 =>
      simp only [cheapest, hc, Option.some.injEq] at h
      obtain ⟨h1, h2⟩ := ih m1 hc
      subst h
      constructor
      · rcases Nat.le_total c m1 with h3 | h3
        · simp [Nat.min_eq_left h3]
        · simp [Nat.min_eq_right h3, h1]
      · intro x hx
        rcases List.mem_cons.mp hx with h3 | h3
        · subst h3
          exact Nat.min_le_left _ _
        · exact Nat.le_trans (Nat.min_le_right _ _) (h2 x h3)

theorem pickMin_spec (l : List Candidate) (m : Candidate) (h : pickMin l = some m) :
    m ∈ l ∧ ∀ x ∈ l, m.cost ≤ x.cost := by
  induction l generalizing m with
  | nil => simp [pickMin] at h
  | cons c cs ih =>
    cases hc : pickMin cs with
    | none =>
      simp only [pickMin, hc, Option.some.injEq] at h
      subst h
      cases cs with
      | nil => simp
      | cons d ds =>
        exfalso
        simp only [pickMin] at hc
        cases hd : pickMin ds with
        | none => simp [hd] at hc
        | some m2 =>
          simp only [hd] at hc
          split at hc <;> cases hc
    | some m1 =>
      simp only [pickMin, hc] at h
      obtain ⟨h1, h2⟩ := ih m1 hc
      by_cases hlt : m1.cost < c.cost
      · rw [if_pos hlt] at h
        cases h
        refine ⟨List.mem_cons_of_mem _ h1, fun x hx => ?_⟩
        rcases List.mem_cons.mp hx with h3 | h3
        · subst h3
          exact Nat.le_of_lt hlt
        · exact h2 x h3
      · rw [if_neg hlt] at h
        cases h
        refine ⟨List.mem_cons_self _ _, fun x hx => ?_⟩
        rcases List.mem_cons.mp hx with h3 | h3
        · subst h3
          exact Nat.le_refl _
        · exact Nat.le_trans (Nat.le_of_not_lt hlt) (h2 x h3)

/-- The candidates of an edge are the pairs of the edge's action with an agent that has a
finite cost for it and a feasible pair cost. -/
theorem mem_edgeCandidates (cfg : Configuration Nat) (node : String) (e : PlanEdge) (d : Nat)
    (cand : Candidate) :
    cand ∈ edgeCandidates cfg node e d ↔
      ∃ act ac, UMap.find cfg.actions e.action = some act ∧ (cand.agent, ac) ∈ act.costs ∧
        ac ≠ infeasibleCost ∧ pairCost cfg node cand.agent ac d = some cand.cost ∧
        cand.action = e.action := by
  unfold edgeCandidates
  cases hact : UMap.find cfg.actions e.action with
  | none => simp
  | some act =>
    simp only [List.mem_filterMap, finiteCosts, List.mem_filter, decide_eq_true_eq,
      Option.map_eq_some']
    constructor
    · rintro ⟨p, ⟨hp, hfin⟩, c, hc, hcand⟩
      subst hcand
      exact ⟨act, p.2, rfl, hp, hfin, hc, rfl⟩
    · rintro ⟨act2, ac, hact2, hp, hfin, hc, hact3⟩
      cases hact2
      refine ⟨(cand.agent, ac), ⟨hp, hfin⟩, cand.cost, hc, ?_⟩
      cases cand
      simp_all

/-- The candidates of an OR-node are the candidates of its edges with a solved
destination. -/
theorem mem_orCandidates (cfg : Configuration Nat) (node : String)
    (solveNode : String → Solved) (es : List PlanEdge) (cs : List Candidate)
    (h : orCandidates cfg node solveNode es = some cs) (cand : Candidate) :
    cand ∈ cs ↔ ∃ e ∈ es, ∃ d ch, solveNode e.destination = .solved d ch ∧
      cand ∈ edgeCandidates cfg node e d := by
  induction es generalizing cs with
  | nil =>
    simp only [orCandidates, Option.some.injEq] at h
    subst h
    simp
  | cons e es ih =>
    simp only [orCandidates] at h
    cases hrest : orCandidates cfg node solveNode es with
    | none =>
      rw [hrest] at h
      cases hd : solveNode e.destination <;> simp [hd] at h
    | some cs1 =>
      rw [hrest] at h
      have ih1 := ih cs1 hrest
      cases hd : solveNode e.destination with
      | outOfFuel => simp [hd] at h
      | unsolvable =>
        simp only [hd, Option.some.injEq] at h
        subst h
        rw [ih1]
        constructor
        · rintro ⟨e1, he1, rest⟩
          exact ⟨e1, List.mem_cons_of_mem _ he1, rest⟩
        · rintro ⟨e1, he1, d, ch, hs, hc⟩
          rcases List.mem_cons.mp he1 with h1 | h1
          · subst h1
            rw [hd] at hs
            cases hs
          · exact ⟨e1, h1, d, ch, hs, hc⟩
      | solved d0 ch0 =>
        simp only [hd, Option.some.injEq] at h
        subst h
        rw [List.mem_append, ih1]
        constructor
        · rintro (h1 | ⟨e1, he1, rest⟩)
          · exact ⟨e, List.mem_cons_self _ _, d0, ch0, hd, h1⟩
          · exact ⟨e1, List.mem_cons_of_mem _ he1, rest⟩
        · rintro ⟨e1, he1, d, ch, hs, hc⟩
          rcases List.mem_cons.mp he1 with h1 | h1
          · subst h1
            rw [hd] at hs
            cases hs
            exact Or.inl hc
          · exact Or.inr ⟨e1, h1, d, ch, hs, hc⟩

/-- C21 (on the planner modelled from the spec): when the planner solves an OR-node with the
cost `c` and the choice (agent, action), that pair is a feasible pair of one of the outgoing
edges with cost `c`, and `c` is at most the cost of every feasible (agent, action) pair across
all outgoing edges. The cost of a pair is the action cost for the agent plus the solved cost of
the destination, plus, when the agent cannot reach the subassembly, the interaction cost,
which is the least finite cost of the interaction action. -/
theorem or_node_cost_is_minimum (cfg : Configuration Nat) (g : PlanGraph) (fuel : Nat)
    (name : String) (node : PlanNode) (c : Nat) (agent action : String)
    (hnode : UMap.find g name = some node) (htype : node.type = NodeType.OR)
    (hsolved : solve cfg g (fuel + 1) name = .solved c (some (agent, action))) :
    (∃ e ∈ node.edges, ∃ act ac d ch, e.action = action ∧
      UMap.find cfg.actions action = some act ∧ (agent, ac) ∈ act.costs ∧
      ac ≠ infeasibleCost ∧ solve cfg g fuel e.destination = .solved d ch ∧
      pairCost cfg name agent ac d = some c) ∧
    (∀ e ∈ node.edges, ∀ act agent2 ac d ch c2,
      UMap.find cfg.actions e.action = some act → (agent2, ac) ∈ act.costs →
      ac ≠ infeasibleCost → solve cfg g fuel e.destination = .solved d ch →
      pairCost cfg name agent2 ac d = some c2 → c ≤ c2) ∧
    (∀ agent2 ac d, (∀ sub, UMap.find cfg.subassemblies name = some sub →
        ∀ i, UMap.find sub.reachability agent2 = some (true, i) →
          pairCost cfg name agent2 ac d = some (ac + d)) ∧
      (∀ sub, UMap.find cfg.subassemblies name = some sub →
        ∀ i, UMap.find sub.reachability agent2 = some (false, i) →
          pairCost cfg name agent2 ac d = (interactionCost cfg i).map fun ic => ic + ac + d)) ∧
    (∀ i ic, interactionCost cfg i = some ic →
      ∃ act, UMap.find cfg.actions i = some act ∧
        (∃ a, (a, ic) ∈ act.costs ∧ ic ≠ infeasibleCost) ∧
        ∀ a x, (a, x) ∈ act.costs → x ≠ infeasibleCost → ic ≤ x) := by
  have hcands : ∃ cs m, orCandidates cfg name (solve cfg g fuel) node.edges = some cs ∧
      pickMin cs = some m ∧ m.cost = c ∧ m.agent = agent ∧ m.action = action := by
    simp only [solve, hnode, htype] at hsolved
    split at hsolved
    · cases hsolved
    · cases hcs : orCandidates cfg name (solve cfg g fuel) node.edges with
      | none => simp [hcs] at hsolved
      | some cs =>
        simp only [hcs] at hsolved
        cases hm : pickMin cs with
        | none => simp [hm] at hsolved
        | some m =>
          simp only [hm, Solved.solved.injEq, Option.some.injEq, Prod.mk.injEq] at hsolved
          exact ⟨cs, m, rfl, hm, hsolved.1, hsolved.2.1, hsolved.2.2⟩
  obtain ⟨cs, m, hcs, hm, hc, hag, hac⟩ := hcands
  obtain ⟨hmem, hmin⟩ := pickMin_spec cs m hm
  refine ⟨?_, ?_, ?_, ?_⟩
  · obtain ⟨e, he, d, ch, hd, hcand⟩ := (mem_orCandidates cfg name _ _ cs hcs m).mp hmem
    obtain ⟨act, ac, h1, h2, h3, h4, h5⟩ := (mem_edgeCandidates cfg name e d m).mp hcand
    rw [hag] at h2 h4
    rw [hc] at h4
    rw [hac] at h5
    exact ⟨e, he, act, ac, d, ch, h5.symm, by rw [h5]; exact h1, h2, h3, hd, h4⟩
  · intro e he act agent2 ac d ch c2 h1 h2 h3 h4 h5
    have hcand : ({ cost := c2, agent := agent2, action := e.action } : Candidate) ∈ cs :=
      (mem_orCandidates cfg name _ _ cs hcs _).mpr
        ⟨e, he, d, ch, h4, (mem_edgeCandidates cfg name e d _).mpr ⟨act, ac, h1, h2, h3, h5, rfl⟩⟩
    have := hmin _ hcand
    rw [hc] at this
    exact this
  · intro agent2 ac d
    constructor
    · intro sub hsub i hr
      simp [pairCost, hsub, hr]
    · intro sub hsub i hr
      simp only [pairCost, hsub, hr]
      cases interactionCost cfg i <;> rfl
  · intro i ic hic
    unfold interactionCost at hic
    cases hact : UMap.find cfg.actions i with
    | none => simp [hact] at hic
    | some act =>
      simp only [hact] at hic
      obtain ⟨h1, h2⟩ := cheapest_spec _ ic hic
      simp only [finiteCosts, List.mem_map, List.mem_filter, decide_eq_true_eq] at h1 h2
      refine ⟨act, rfl, ?_, ?_⟩
      · obtain ⟨p, ⟨hp, hfin⟩, hpc⟩ := h1
        subst hpc
        exact ⟨p.1, hp, hfin⟩
      · intro a x hx hfin
        exact h2 x ⟨(a, x), ⟨hx, hfin⟩, rfl⟩

/-- Witness of C21: the root `P` of the end-to-end scenario, solved with cost 7 by `agentX`
performing `split`. -/
theorem or_node_cost_is_minimum_witness :
    UMap.find scenarioGraph "P" =
      some { type := NodeType.OR, edges := [{ action := "split", destination := "AB" }] } ∧
    solve scenarioConfig scenarioGraph (2 + 1) "P" = .solved 7 (some ("agentX", "split")) ∧
    (∃ e ∈ [({ action := "split", destination := "AB" } : PlanEdge)], ∃ act ac d ch,
      e.action = "split" ∧
      UMap.find scenarioConfig.actions "split" = some act ∧ ("agentX", ac) ∈ act.costs ∧
      ac ≠ infeasibleCost ∧ solve scenarioConfig scenarioGraph 2 e.destination = .solved d ch ∧
      pairCost scenarioConfig "P" "agentX" ac d = some 7) :=
  ⟨by decide, by decide,
    (or_node_cost_is_minimum scenarioConfig scenarioGraph 2 "P"
      { type := NodeType.OR, edges := [{ action := "split", destination := "AB" }] }
      7 "agentX" "split" (by decide) rfl (by decide)).1⟩

/-- C22 (on the planner modelled from the spec): on the graph with OR-root `P`, one edge with
the action `split` to the AND-node `AB` whose successors are the terminals `A` and `B`, with
`split` costing 5 for `agentX` and 7 for `agentY`, `P` not reachable for `agentX` with the
interaction `unlock`, and `unlock` costing 2 for `agentY`, the solved cost of `P` is
2 + 5 + 0 = 7, whatever recursion budget of at least 3 is given. -/
theorem scenario_with_interaction_costs_seven :
    (∀ k, solve scenarioConfig scenarioGraph (k + 3) "P" =
      .solved (2 + 5 + 0) (some ("agentX", "split"))) ∧
    interactionCost scenarioConfig "unlock" = some 2 ∧
    solve scenarioConfig scenarioGraph 2 "AB" = .solved 0 none := by
  refine ⟨fun k => rfl, by decide, by decide⟩

end AssemblyPlanner
